import Mathlib

/-!
Verification of the flatten/unflatten schema utilities, the tracing adapter,
the operator-counting wrappers (`src/unlanedet/utils/flatten.py`), the CLI
task dispatch (`src/tools/analysis.py`), and the model wiring of the config
`src/config/gsenet/resnet18_tusimple.py`.

Python values are embedded as the inductive `PyObj`; raising an exception is
embedded as returning `Except.error` of a `PyErr`.  A Python dict is embedded
as an insertion-ordered association list of (key, value) pairs; validity
(`PyObj.valid`) states that, as in every real Python dict, keys are pairwise
distinct.
-/

/-- A Python dict key: either a `str`, or some other hashable value
(identified by a numeric id). -/
inductive PyKey where
  | str (s : String)
  | nonStr (id : Nat)
deriving DecidableEq, Repr

/-- A Python object, covering exactly the shapes `flatten_to_tuple` dispatches
on (flatten.py lines 132-137): `str`, `bytes`, `list`, `tuple`,
`collections.abc.Mapping` (an insertion-ordered association list), plus the
leaf values relevant to tracing: a `torch.Tensor` (identified by id) and any
other non-container object (identified by id). -/
inductive PyObj where
  | str (s : String)
  | bytes (b : List Nat)
  | list (xs : List PyObj)
  | tup (xs : List PyObj)
  | dict (entries : List (PyKey × PyObj))
  | tensor (id : Nat)
  | other (id : Nat)

/-- The Python exceptions raised by the embedded code.
`keyError`: "Only support flattening dictionaries if keys are str."
(DictSchema.flatten); `valueError`: ListSchema.__call__ length mismatch and
TracingAdapter input checks; `assertionError`: the failed assert in
Schema._split; `indexError`: `values[0]` on an empty tuple in
IdentitySchema.__call__; `notImplementedError`: unknown mode in
_wrapper_count_operators. -/
inductive PyErr where
  | keyError
  | valueError
  | assertionError
  | indexError
  | notImplementedError
deriving DecidableEq, Repr

/-- The schema dataclasses of flatten.py: `IdentitySchema`, `ListSchema`
(fields `schemas`, `sizes`), its subclass `TupleSchema`, and its subclass
`DictSchema` (extra field `keys`). -/
inductive Schema where
  | identity
  | list (schemas : List Schema) (sizes : List Nat)
  | tup (schemas : List Schema) (sizes : List Nat)
  | dict (schemas : List Schema) (sizes : List Nat) (keys : List String)

/-- Embeds `isinstance(k, str)` on a dict key. -/
def PyKey.isStr : PyKey → Bool
  | .str _ => true
  | .nonStr _ => false

/-- The underlying string of a `str` key (default `""` for non-str keys; in
`flatten_to_tuple` it is only used after the all-keys-are-str check). -/
def PyKey.asStr : PyKey → String
  | .str s => s
  | .nonStr _ => ""

/-- Embeds `isinstance(x, torch.Tensor)`. -/
def PyObj.isTensor : PyObj → Bool
  | .tensor _ => true
  | _ => false

/-- Whether the object is one of the container shapes (`list`, `tuple`,
mapping) that `flatten_to_tuple` decomposes. -/
def PyObj.isContainer : PyObj → Bool
  | .list _ => true
  | .tup _ => true
  | .dict _ => true
  | _ => false

/-- Embeds `obj[k]` on the association-list embedding of a dict: the value
of the first entry whose key is `k`. -/
def lookupKey (k : PyKey) : List (PyKey × PyObj) → Option PyObj
  | [] => none
  | e :: rest => if e.1 = k then some e.2 else lookupKey k rest

/-- The order used by `sorted(obj.keys())` in DictSchema.flatten, lifted to
(key, value) entries: lexicographic order of the key strings. -/
def entryLE (a b : PyKey × PyObj) : Prop := a.1.asStr ≤ b.1.asStr

instance : DecidableRel entryLE :=
  fun a b => inferInstanceAs (Decidable (a.1.asStr ≤ b.1.asStr))

instance : IsTotal (PyKey × PyObj) entryLE :=
  ⟨fun a b => le_total a.1.asStr b.1.asStr⟩

instance : IsTrans (PyKey × PyObj) entryLE :=
  ⟨fun _ _ _ hab hbc => le_trans hab hbc⟩

/-- Embeds `keys = sorted(obj.keys()); values = [obj[k] for k in keys]`
(DictSchema.flatten, lines 115-116).  The keys of a Python dict are pairwise
distinct, so sorting the key list and looking every key up is the same as
stably sorting the (key, value) entries by key; we embed the latter. -/
def sortedEntries (entries : List (PyKey × PyObj)) : List (PyKey × PyObj) :=
  List.insertionSort entryLE entries

/-- Embeds `Schema._concat(values)` (lines 42-50): concatenate the
already-flattened tuples and record the length of each tuple. -/
def Schema._concat (values : List (List PyObj)) : List PyObj × List Nat :=
  values.foldl (fun acc v => (acc.1 ++ v, acc.2 ++ [v.length])) ([], [])

/-- Embeds `Schema._split(values, sizes)` (lines 52-63): when `sizes` is non-empty,
assert `len(values) == sum(sizes)`; then slice `values` into
`values[sum(sizes[:k]) : sum(sizes[:k+1])]` for each `k`. -/
def Schema._split (values : List PyObj) (sizes : List Nat) :
    Except PyErr (List (List PyObj)) :=
  if sizes.length ≠ 0 ∧ values.length ≠ sizes.sum then
    .error .assertionError
  else
    .ok ((List.range sizes.length).map fun k =>
      (values.drop ((sizes.take k).sum)).take
        ((sizes.take (k + 1)).sum - (sizes.take k).sum))

mutual
/-- Embeds `flatten_to_tuple(obj)` (lines 122-145): dispatch on the runtime
type, in
source order — `(str, bytes)` to IdentitySchema, `list` to ListSchema,
`tuple` to TupleSchema, `Mapping` to DictSchema, anything else to
IdentitySchema.  `IdentitySchema.flatten(obj)` returns `((obj,), cls())`;
`DictSchema.flatten` first raises KeyError if any key is not a str, then
flattens the values in sorted-key order and records the sorted keys. -/
def flatten_to_tuple : PyObj → Except PyErr (List PyObj × Schema)
  | .str s => .ok ([.str s], .identity)
  | .bytes b => .ok ([.bytes b], .identity)
  | .list xs =>
    match flattenAll xs with
    | .error e => .error e
    | .ok (vals, schemas, sizes) => .ok (vals, .list schemas sizes)
  | .tup xs =>
    match flattenAll xs with
    | .error e => .error e
    | .ok (vals, schemas, sizes) => .ok (vals, .tup schemas sizes)
  | .dict entries =>
    if (entries.map Prod.fst).any (fun k => ! k.isStr) then
      .error .keyError
    else
      match flattenAll ((sortedEntries entries).map Prod.snd) with
      | .error e => .error e
      | .ok (vals, schemas, sizes) =>
        .ok (vals, .dict schemas sizes ((sortedEntries entries).map fun e => e.1.asStr))
  | .tensor i => .ok ([.tensor i], .identity)
  | .other i => .ok ([.other i], .identity)
termination_by obj => sizeOf obj
decreasing_by
  · simp only [PyObj.list.sizeOf_spec]; omega
  · simp only [PyObj.tup.sizeOf_spec]; omega
  · have hsz : ∀ (l₁ l₂ : List PyObj), l₁.Perm l₂ → sizeOf l₁ = sizeOf l₂ := by
      intro l₁ l₂ hp
      induction hp with
      | nil => rfl
      | cons a _ ih => simp only [List.cons.sizeOf_spec]; omega
      | swap a b l => simp only [List.cons.sizeOf_spec]; omega
      | trans _ _ ih₁ ih₂ => omega
    have hle : ∀ (l : List (PyKey × PyObj)), sizeOf (l.map Prod.snd) ≤ sizeOf l := by
      intro l
      induction l with
      | nil => simp
      | cons e rest ih =>
        cases e with
        | mk k v =>
          simp only [List.map_cons, List.cons.sizeOf_spec, Prod.mk.sizeOf_spec]
          omega
    have h₁ := hsz _ _ ((List.perm_insertionSort entryLE entries).map Prod.snd)
    have h₂ := hle entries
    simp only [sortedEntries, PyObj.dict.sizeOf_spec]
    omega

/-- Embeds `ListSchema.flatten(obj)` (lines 79-83): `res = [flatten_to_tuple(k) for
k in obj]`, then `Schema._concat` of the value tuples; returns the
concatenated values, the element schemas, and the recorded sizes, with the
comprehension and `_concat` fused into one recursion. -/
def flattenAll : List PyObj → Except PyErr (List PyObj × List Schema × List Nat)
  | [] => .ok ([], [], [])
  | x :: xs =>
    match flatten_to_tuple x with
    | .error e => .error e
    | .ok (v, s) =>
      match flattenAll xs with
      | .error e => .error e
      | .ok (vs, ss, sizes) => .ok (v ++ vs, s :: ss, v.length :: sizes)
termination_by xs => sizeOf xs
decreasing_by
  · simp only [List.cons.sizeOf_spec]; omega
  · simp only [List.cons.sizeOf_spec]; omega
end

mutual
/-- Embeds `Schema.__call__(values)` of each dataclass: `IdentitySchema.__call__`
returns `values[0]` (IndexError on an empty tuple); `ListSchema.__call__`
(lines 70-77) splits `values` by `sizes`, raises ValueError if the number of
pieces differs from the number of schemas, applies each schema to its piece
and returns the list; `TupleSchema.__call__` returns the tuple of that list;
`DictSchema.__call__` (lines 106-108) zips its `keys` with that list into a
dict. -/
def Schema.apply : Schema → List PyObj → Except PyErr PyObj
  | .identity, values =>
    match values with
    | [] => .error .indexError
    | v :: _ => .ok v
  | .list schemas sizes, values =>
    match Schema._split values sizes with
    | .error e => .error e
    | .ok parts =>
      if parts.length ≠ schemas.length then .error .valueError
      else
        match Schema.applyAll schemas parts with
        | .error e => .error e
        | .ok objs => .ok (.list objs)
  | .tup schemas sizes, values =>
    match Schema._split values sizes with
    | .error e => .error e
    | .ok parts =>
      if parts.length ≠ schemas.length then .error .valueError
      else
        match Schema.applyAll schemas parts with
        | .error e => .error e
        | .ok objs => .ok (.tup objs)
  | .dict schemas sizes keys, values =>
    match Schema._split values sizes with
    | .error e => .error e
    | .ok parts =>
      if parts.length ≠ schemas.length then .error .valueError
      else
        match Schema.applyAll schemas parts with
        | .error e => .error e
        | .ok objs => .ok (.dict ((keys.map PyKey.str).zip objs))
termination_by schema _ => sizeOf schema

/-- Embeds `[m(v) for m, v in zip(self.schemas, values)]` (line 76): apply
the schemas pointwise; like the Python `zip`, stop at the shorter list. -/
def Schema.applyAll : List Schema → List (List PyObj) → Except PyErr (List PyObj)
  | [], _ => .ok []
  | _ :: _, [] => .ok []
  | m :: ms, v :: vs =>
    match m.apply v with
    | .error e => .error e
    | .ok r =>
      match Schema.applyAll ms vs with
      | .error e => .error e
      | .ok rs => .ok (r :: rs)
termination_by ms _ => sizeOf ms
end

mutual
/-- Python `==` on the embedded objects: pointwise on sequences, by value on
leaves, and key-based on dicts — two dicts are `==` when they have the same
number of entries and every key of the first maps to an `==` value in the
second, independently of insertion order. -/
def pyEq : PyObj → PyObj → Bool
  | .str a, .str b => a == b
  | .bytes a, .bytes b => a == b
  | .list a, .list b => pyEqList a b
  | .tup a, .tup b => pyEqList a b
  | .dict a, .dict b => a.length == b.length && pyEqEntries a b
  | .tensor a, .tensor b => a == b
  | .other a, .other b => a == b
  | _, _ => false
termination_by a _ => sizeOf a

/-- Pointwise `pyEq` on two sequences of equal length. -/
def pyEqList : List PyObj → List PyObj → Bool
  | [], [] => true
  | x :: xs, y :: ys => pyEq x y && pyEqList xs ys
  | _, _ => false
termination_by xs _ => sizeOf xs

/-- Every (key, value) of the first dict is matched by the lookup of the key
in the second. -/
def pyEqEntries : List (PyKey × PyObj) → List (PyKey × PyObj) → Bool
  | [], _ => true
  | (k, v) :: rest, b =>
    (match lookupKey k b with
     | none => false
     | some w => pyEq v w) && pyEqEntries rest b
termination_by a _ => sizeOf a
end

/-- Pairwise-distinct key list. -/
def keysNodup : List PyKey → Bool
  | [] => true
  | k :: rest => !(rest.any fun k' => decide (k' = k)) && keysNodup rest

mutual
/-- Validity of the association-list embedding of dicts: in every real Python
dict — at any nesting depth — the keys are pairwise distinct. -/
def PyObj.valid : PyObj → Bool
  | .list xs => PyObj.validList xs
  | .tup xs => PyObj.validList xs
  | .dict entries => keysNodup (entries.map Prod.fst) && PyObj.validEntries entries
  | _ => true

def PyObj.validList : List PyObj → Bool
  | [] => true
  | x :: xs => x.valid && PyObj.validList xs

def PyObj.validEntries : List (PyKey × PyObj) → Bool
  | [] => true
  | (_, v) :: rest => v.valid && PyObj.validEntries rest
end

mutual
/-- Whether the object, or any container nested inside it, is a mapping with
at least one non-`str` key. -/
def hasNonStrKey : PyObj → Bool
  | .list xs => hasNonStrKeyList xs
  | .tup xs => hasNonStrKeyList xs
  | .dict entries =>
    (entries.map Prod.fst).any (fun k => ! k.isStr) || hasNonStrKeyEntries entries
  | _ => false

def hasNonStrKeyList : List PyObj → Bool
  | [] => false
  | x :: xs => hasNonStrKey x || hasNonStrKeyList xs

def hasNonStrKeyEntries : List (PyKey × PyObj) → Bool
  | [] => false
  | (_, v) :: rest => hasNonStrKey v || hasNonStrKeyEntries rest
end

mutual
/-- The flat leaf sequence described by the specification: the leaf
(non-list, non-tuple, non-mapping) values of the object in order — list and
tuple elements in element order, mapping values in sorted-key order.  This
definition follows the words of the specification; the theorems compare the
output of `flatten_to_tuple` against it. -/
def specLeafSeq : PyObj → List PyObj
  | .list xs => specLeafSeqAll xs
  | .tup xs => specLeafSeqAll xs
  | .dict entries => specLeafSeqAll ((sortedEntries entries).map Prod.snd)
  | .str s => [.str s]
  | .bytes b => [.bytes b]
  | .tensor i => [.tensor i]
  | .other i => [.other i]
termination_by obj => sizeOf obj
decreasing_by
  · simp only [PyObj.list.sizeOf_spec]; omega
  · simp only [PyObj.tup.sizeOf_spec]; omega
  · have hsz : ∀ (l₁ l₂ : List PyObj), l₁.Perm l₂ → sizeOf l₁ = sizeOf l₂ := by
      intro l₁ l₂ hp
      induction hp with
      | nil => rfl
      | cons a _ ih => simp only [List.cons.sizeOf_spec]; omega
      | swap a b l => simp only [List.cons.sizeOf_spec]; omega
      | trans _ _ ih₁ ih₂ => omega
    have hle : ∀ (l : List (PyKey × PyObj)), sizeOf (l.map Prod.snd) ≤ sizeOf l := by
      intro l
      induction l with
      | nil => simp
      | cons e rest ih =>
        cases e with
        | mk k v =>
          simp only [List.map_cons, List.cons.sizeOf_spec, Prod.mk.sizeOf_spec]
          omega
    have h₁ := hsz _ _ ((List.perm_insertionSort entryLE entries).map Prod.snd)
    have h₂ := hle entries
    simp only [sortedEntries, PyObj.dict.sizeOf_spec]
    omega

/-- Leaf sequence of each element of a list, concatenated in element order
(specification side, companion of `specLeafSeq`). -/
def specLeafSeqAll : List PyObj → List PyObj
  | [] => []
  | x :: xs => specLeafSeq x ++ specLeafSeqAll xs
termination_by xs => sizeOf xs
end

/-- The fields of `TracingAdapter` that its `__init__` computes from the
inputs: `self.inputs` (the input tuple), `self.allow_non_tensor`,
`self.flattened_inputs` and `self.inputs_schema` (`none` embeds the Python
`None`). -/
structure TracingAdapter where
  inputs : PyObj
  allow_non_tensor : Bool
  flattened_inputs : List PyObj
  inputs_schema : Option Schema

/-- Embeds `if not isinstance(inputs, tuple): inputs = (inputs,)` (lines
238-239). -/
def wrapInputs : PyObj → PyObj
  | .tup xs => .tup xs
  | obj => .tup [obj]

/-- Embeds `TracingAdapter.__init__(model, inputs, inference_func, allow_non_tensor)`
(lines 210-262), restricted to its input handling: unwrapping a
DistributedDataParallel model, storing `self.model` and defaulting
`self.inference_func` act only on the torch module and are not part of the
verified fields.  The inputs are wrapped into a tuple if needed and
flattened; if every flattened input is a tensor the schema is kept; otherwise
`allow_non_tensor=True` filters the non-tensors out of `flattened_inputs` and
sets `inputs_schema` to `None`, while `allow_non_tensor=False` raises
ValueError ("Inputs for tracing must only contain tensors. ..."). -/
def TracingAdapter.init (inputs : PyObj) (allow_non_tensor : Bool) :
    Except PyErr TracingAdapter :=
  let inputs := wrapInputs inputs
  match flatten_to_tuple inputs with
  | .error e => .error e
  | .ok (flattened_inputs, inputs_schema) =>
    if flattened_inputs.all (fun x => x.isTensor) then
      .ok ⟨inputs, allow_non_tensor, flattened_inputs, some inputs_schema⟩
    else if allow_non_tensor then
      .ok ⟨inputs, allow_non_tensor,
           flattened_inputs.filter (fun x => x.isTensor), none⟩
    else
      .error .valueError

/-- The state of a torch `nn.Module` relevant to the counting wrappers: the
`training` flag toggled by `.train()` / `.eval()`, and an abstract token for
all of its remaining mutable state. -/
structure ModelState where
  training : Bool
  rest : Nat

/-- Embeds `model.eval()`: sets `training` to `False` (recursively on submodules —
one flag suffices here since the wrappers toggle the whole module tree). -/
def ModelState.eval (m : ModelState) : ModelState := { m with training := false }

/-- Embeds `model.train(mode)`: sets `training` to `mode`. -/
def ModelState.train (m : ModelState) (mode : Bool) : ModelState :=
  { m with training := mode }

/-- Embeds `flop_count_operators(model, inputs)` (lines 365-394).  The call
`FlopCountAnalysis(model, inputs).by_operator()` — an external fvcore
analysis over a `TracingAdapter(model, inputs, allow_non_tensor=True)` — is
an opaque parameter `count` that receives the model (in eval mode) and may
mutate it and raise; the final `{k: v / 1e9 ...}` scaling is part of the
opaque result type. -/
def flop_count_operators {α : Type}
    (count : ModelState → Except PyErr (ModelState × α)) (model : ModelState) :
    Except PyErr (ModelState × α) :=
  let old_train := model.training
  let model := model.eval
  match count model with
  | .error e => .error e
  | .ok (model, ret) => .ok (model.train old_train, ret)

/-- Embeds `FLOPS_MODE = "flops"` (line 396). -/
def FLOPS_MODE : String := "flops"

/-- Embeds `ACTIVATIONS_MODE = "activations"` (line 397). -/
def ACTIVATIONS_MODE : String := "activations"

/-- Embeds `_wrapper_count_operators(model, inputs, mode, **kwargs)` (lines
424-451).  The `supported_ops` kwargs plumbing only builds the argument dict
for fvcore and touches no model state; `fvcore.nn.flop_count` and
`fvcore.nn.activation_count` are opaque parameters receiving the model (in
eval mode, via `wrapper.eval()`) and the image tensor.  DistributedDataParallel
unwrapping acts on the torch wrapper object only. -/
def _wrapper_count_operators {α : Type}
    (flop_count activation_count :
      ModelState → PyObj → Except PyErr (ModelState × α))
    (model : ModelState) (inputs : List (List (PyKey × PyObj))) (mode : String) :
    Except PyErr (ModelState × α) :=
  -- assert len(inputs) == 1, "Please use batch size=1"
  match inputs with
  | [] => .error .assertionError
  | _ :: _ :: _ => .error .assertionError
  | [entries] =>
    -- tensor_input = inputs[0]["image"]; inputs = [{"image": tensor_input}]
    match lookupKey (.str "image") entries with
    | none => .error .keyError
    | some tensor_input =>
      let old_train := model.training
      match TracingAdapter.init (.list [.dict [(.str "image", tensor_input)]])
          false with
      | .error e => .error e
      | .ok _wrapper =>
        -- wrapper.eval() puts the wrapped model into eval mode
        let model := model.eval
        match
          (if mode = FLOPS_MODE then .ok (flop_count model tensor_input)
           else if mode = ACTIVATIONS_MODE then
             .ok (activation_count model tensor_input)
           else .error PyErr.notImplementedError :
            Except PyErr (Except PyErr (ModelState × α))) with
        | .error e => .error e
        | .ok (.error e) => .error e
        | .ok (.ok (model, ret)) => .ok (model.train old_train, ret)

/-- The loaded config object of analysis.py (opaque). -/
structure Cfg where
  id : Nat
deriving DecidableEq, Repr

/-- One library call made by the analysis.py task loop, with the config it was
given. -/
inductive AnalysisCall where
  | do_flop (cfg : Cfg)
  | do_activation (cfg : Cfg)
  | do_parameter (cfg : Cfg)
  | do_structure (cfg : Cfg)
deriving DecidableEq, Repr

/-- The dict literal of analysis.py lines 126-131 mapping each task name to
the library function it dispatches to. -/
def taskTable : List (String × (Cfg → AnalysisCall)) :=
  [("flop", AnalysisCall.do_flop),
   ("activation", AnalysisCall.do_activation),
   ("parameter", AnalysisCall.do_parameter),
   ("structure", AnalysisCall.do_structure)]

/-- Embeds `for task in args.tasks: {...}[task](cfg)` (lines 125-131): the sequence
of library calls, one per task occurrence, in the order given; `none` embeds
the KeyError a name outside the dict would raise (the argparse `choices`
prevents that). -/
def runTasks (tasks : List String) (cfg : Cfg) : Option (List AnalysisCall) :=
  match tasks with
  | [] => some []
  | t :: rest =>
    match taskTable.lookup t with
    | none => none
    | some f =>
      match runTasks rest cfg with
      | none => none
      | some calls => some (f cfg :: calls)

/-- Embeds `choices=["flop", "activation", "parameter", "structure"]` of the
`--tasks` argument (lines 103-108). -/
def taskChoices : List String := ["flop", "activation", "parameter", "structure"]

/-- The library function the specification says each task name must invoke
("flop" invokes do_flop, "activation" do_activation, "parameter"
do_parameter, "structure" do_structure); specification side, to be compared
with the dispatch of `runTasks`. -/
def specTaskCall (task : String) (cfg : Cfg) : AnalysisCall :=
  if task = "flop" then .do_flop cfg
  else if task = "activation" then .do_activation cfg
  else if task = "parameter" then .do_parameter cfg
  else .do_structure cfg

mutual
/-- A value appearing in a config declaration: a Python literal, a reference
to a named Python object, or a nested `L(Class)(kwargs...)` lazy call. -/
inductive CfgVal where
  | int (n : Int)
  | bool (b : Bool)
  | str (s : String)
  | intList (xs : List Int)
  | boolList (xs : List Bool)
  | ref (name : String)
  | call (c : LazyCallV)

/-- Embeds `L(Class)(name1=v1, ..., namek=vk)`: the class name and the keyword
arguments in source order. -/
inductive LazyCallV where
  | mk (cls : String) (kwargs : List (String × CfgVal))
end

/-- The class name of a lazy call. -/
def LazyCallV.cls : LazyCallV → String
  | .mk c _ => c

/-- The keyword arguments of a lazy call, in source order. -/
def LazyCallV.kwargs : LazyCallV → List (String × CfgVal)
  | .mk _ k => k

/-- The class name of the lazy call bound to keyword `name`, if `name` is
bound to a lazy call. -/
def LazyCallV.kwargClass (c : LazyCallV) (name : String) : Option String :=
  match c.kwargs.lookup name with
  | some (.call v) => some v.cls
  | _ => none

/-- The `model = L(GSENet)(backbone=..., neck=..., head=...)` declaration of
resnet18_tusimple.py lines 57-76. -/
def resnet18_tusimple_model : LazyCallV :=
  .mk "GSENet"
    [("backbone", .call (.mk "ResNetWrapper"
        [("resnet", .str "resnet18"),
         ("pretrained", .bool true),
         ("replace_stride_with_dilation", .boolList [false, false, false]),
         ("out_conv", .bool false)])),
     ("neck", .call (.mk "FPN"
        [("in_channels", .intList [128, 256, 512]),
         ("out_channels", .int 64),
         ("num_outs", .int 3),
         ("attention", .bool false)])),
     ("head", .call (.mk "GSEHead"
        [("num_priors", .int 192),
         ("refine_layers", .int 3),
         ("fc_hidden_dim", .int 64),
         ("sample_points", .int 36),
         ("cfg", .ref "param_config")]))]

/-- The slices produced by `Schema._split` in recursive form: the first
`s` values, then the slices of the rest (take/drop clamp exactly like Python
slicing does). -/
def splitChunks (values : List PyObj) : List Nat → List (List PyObj)
  | [] => []
  | s :: rest => values.take s :: splitChunks (values.drop s) rest

/-- The total flattened length a schema stands for: 1 for a leaf, the sum of
the recorded `sizes` for a container schema. -/
def Schema.flatLen : Schema → Nat
  | .identity => 1
  | .list _ sizes => sizes.sum
  | .tup _ sizes => sizes.sum
  | .dict _ sizes _ => sizes.sum

mutual
/-- The size invariant of the claim, recursively: in every container schema,
`schemas` and `sizes` have the same length and each entry of `sizes` is the
flattened length (`flatLen`) of the corresponding element schema — hence
`sum(sizes)` is the flattened length of the whole container. -/
def Schema.wellSized : Schema → Bool
  | .identity => true
  | .list ss sizes =>
    decide (ss.length = sizes.length) && decide (sizes = ss.map Schema.flatLen)
      && Schema.wellSizedAll ss
  | .tup ss sizes =>
    decide (ss.length = sizes.length) && decide (sizes = ss.map Schema.flatLen)
      && Schema.wellSizedAll ss
  | .dict ss sizes _ =>
    decide (ss.length = sizes.length) && decide (sizes = ss.map Schema.flatLen)
      && Schema.wellSizedAll ss

/-- Extends `wellSized` to every schema in a list. -/
def Schema.wellSizedAll : List Schema → Bool
  | [] => true
  | s :: rest => s.wellSized && Schema.wellSizedAll rest
end

/-- The element sequence a container object is flattened over: list and tuple
elements in element order, mapping values in sorted-key order; `none` for a
leaf. -/
def containerElems : PyObj → Option (List PyObj)
  | .list xs => some xs
  | .tup xs => some xs
  | .dict entries => some ((sortedEntries entries).map Prod.snd)
  | _ => none

/-- The recorded `sizes` of a container schema; `none` for `identity`. -/
def Schema.sizesOf : Schema → Option (List Nat)
  | .identity => none
  | .list _ sizes => some sizes
  | .tup _ sizes => some sizes
  | .dict _ sizes _ => some sizes

/-! ### Helper lemmas -/

theorem split_ranges_eq (sizes : List Nat) (values : List PyObj) :
    ((List.range sizes.length).map fun k =>
      (values.drop ((sizes.take k).sum)).take
        ((sizes.take (k + 1)).sum - (sizes.take k).sum)) =
    splitChunks values sizes := by
  induction sizes generalizing values with
  | nil => simp [splitChunks]
  | cons s rest ih =>
    rw [splitChunks, ← ih (values.drop s)]
    simp only [List.length_cons, List.range_succ_eq_map, List.map_cons, List.map_map]
    congr 1
    apply List.map_congr_left
    intro k _
    simp only [Function.comp_apply, Nat.succ_eq_add_one, List.take_succ_cons,
      List.sum_cons, List.drop_drop, Nat.add_sub_add_left]

theorem _split_ok (values : List PyObj) (sizes : List Nat)
    (h : values.length = sizes.sum) :
    Schema._split values sizes = .ok (splitChunks values sizes) := by
  rw [Schema._split, if_neg (by omega), split_ranges_eq]

theorem splitChunks_length (values : List PyObj) (sizes : List Nat) :
    (splitChunks values sizes).length = sizes.length := by
  induction sizes generalizing values with
  | nil => simp [splitChunks]
  | cons s rest ih => simp [splitChunks, ih]

theorem splitChunks_append (v vs : List PyObj) (sizes : List Nat) :
    splitChunks (v ++ vs) (v.length :: sizes) = v :: splitChunks vs sizes := by
  rw [splitChunks, List.take_left, List.drop_left]

theorem flattenAll_lengths :
    ∀ (xs vals : List PyObj) (ss : List Schema) (sizes : List Nat),
      flattenAll xs = .ok (vals, ss, sizes) →
      ss.length = xs.length ∧ sizes.length = xs.length ∧ vals.length = sizes.sum := by
  intro xs
  induction xs with
  | nil =>
    intro vals ss sizes h
    rw [flattenAll] at h
    injection h with h
    injection h with h1 h2
    injection h2 with h2 h3
    subst h1; subst h2; subst h3
    simp
  | cons x rest ih =>
    intro vals ss sizes h
    rw [flattenAll] at h
    split at h
    · exact absurd h (by simp)
    · split at h
      · exact absurd h (by simp)
      · rename_i v s _ vs ss' sizes' _
        injection h with h
        injection h with h1 h2
        injection h2 with h2 h3
        subst h1; subst h2; subst h3
        obtain ⟨l1, l2, l3⟩ := ih _ _ _ (by assumption)
        refine ⟨by simp [l1], by simp [l2], by simp [l3]⟩

theorem PyKey.str_asStr {k : PyKey} (h : k.isStr = true) : PyKey.str k.asStr = k := by
  cases k with
  | str s => rfl
  | nonStr i => simp [PyKey.isStr] at h

theorem lookupKey_eq_some_of_mem {l : List (PyKey × PyObj)} {k : PyKey} {v : PyObj}
    (hnd : keysNodup (l.map Prod.fst) = true) (hm : (k, v) ∈ l) :
    lookupKey k l = some v := by
  induction l with
  | nil => simp at hm
  | cons e rest ih =>
    rw [List.map_cons, keysNodup, Bool.and_eq_true] at hnd
    obtain ⟨hnotin, hnd'⟩ := hnd
    rcases List.mem_cons.mp hm with heq | hmem
    · subst heq; rw [lookupKey, if_pos rfl]
    · rw [lookupKey]
      have hne : e.1 ≠ k := by
        intro hek
        have : (rest.map Prod.fst).any (fun k' => decide (k' = e.1)) = true :=
          List.any_eq_true.mpr ⟨k, List.mem_map.mpr ⟨(k, v), hmem, rfl⟩, by simp [hek]⟩
        simp [this] at hnotin
      rw [if_neg hne]
      exact ih hnd' hmem

theorem validList_iff (xs : List PyObj) :
    PyObj.validList xs = true ↔ ∀ x ∈ xs, x.valid = true := by
  induction xs with
  | nil => simp [PyObj.validList]
  | cons x rest ih => rw [PyObj.validList, Bool.and_eq_true, ih]; simp

theorem validEntries_iff (l : List (PyKey × PyObj)) :
    PyObj.validEntries l = true ↔ ∀ e ∈ l, (Prod.snd e).valid = true := by
  induction l with
  | nil => simp [PyObj.validEntries]
  | cons e rest ih =>
    cases e with
    | mk k v => rw [PyObj.validEntries, Bool.and_eq_true, ih]; simp

theorem sortedEntries_perm (entries : List (PyKey × PyObj)) :
    (sortedEntries entries).Perm entries :=
  List.perm_insertionSort entryLE entries

theorem sortedEntries_length (entries : List (PyKey × PyObj)) :
    (sortedEntries entries).length = entries.length :=
  List.length_insertionSort entryLE entries

theorem pyEqEntries_zip :
    ∀ (sorted : List (PyKey × PyObj)) (objs : List PyObj)
      (entries : List (PyKey × PyObj)),
      pyEqList objs (sorted.map Prod.snd) = true →
      (∀ e ∈ sorted, e ∈ entries) →
      keysNodup (entries.map Prod.fst) = true →
      (∀ e ∈ sorted, (Prod.fst e).isStr = true) →
      pyEqEntries (((sorted.map fun e => (Prod.fst e).asStr).map PyKey.str).zip objs)
        entries = true := by
  intro sorted
  induction sorted with
  | nil => intro objs entries _ _ _ _; simp [pyEqEntries]
  | cons e rest ih =>
    intro objs entries hpe hmem hnd hstr
    cases e with
    | mk k v =>
      match objs with
      | [] => simp [pyEqList] at hpe
      | o :: orest =>
        rw [List.map_cons, List.map_cons, List.zip_cons_cons, pyEqEntries]
        simp only [List.map_cons, pyEqList, Bool.and_eq_true] at hpe
        obtain ⟨ho, horest⟩ := hpe
        have hk : PyKey.str (PyKey.asStr k) = k :=
          PyKey.str_asStr (hstr (k, v) (List.mem_cons_self _ _))
        rw [hk]
        have hlk : lookupKey k entries = some v :=
          lookupKey_eq_some_of_mem hnd (hmem (k, v) (List.mem_cons_self _ _))
        rw [hlk, Bool.and_eq_true]
        exact ⟨ho, ih orest entries horest
          (fun e he => hmem e (List.mem_cons_of_mem _ he)) hnd
          (fun e he => hstr e (List.mem_cons_of_mem _ he))⟩

theorem apply_list_ok {ss : List Schema} {sizes : List Nat} {vals objs : List PyObj}
    (h : vals.length = sizes.sum) (hlen : sizes.length = ss.length)
    (happ : Schema.applyAll ss (splitChunks vals sizes) = .ok objs) :
    Schema.apply (.list ss sizes) vals = .ok (.list objs) := by
  rw [Schema.apply, _split_ok _ _ h]
  dsimp only
  rw [splitChunks_length, if_neg (by omega), happ]

theorem apply_tup_ok {ss : List Schema} {sizes : List Nat} {vals objs : List PyObj}
    (h : vals.length = sizes.sum) (hlen : sizes.length = ss.length)
    (happ : Schema.applyAll ss (splitChunks vals sizes) = .ok objs) :
    Schema.apply (.tup ss sizes) vals = .ok (.tup objs) := by
  rw [Schema.apply, _split_ok _ _ h]
  dsimp only
  rw [splitChunks_length, if_neg (by omega), happ]

theorem apply_dict_ok {ss : List Schema} {sizes : List Nat} {keys : List String}
    {vals objs : List PyObj}
    (h : vals.length = sizes.sum) (hlen : sizes.length = ss.length)
    (happ : Schema.applyAll ss (splitChunks vals sizes) = .ok objs) :
    Schema.apply (.dict ss sizes keys) vals =
      .ok (.dict ((keys.map PyKey.str).zip objs)) := by
  rw [Schema.apply, _split_ok _ _ h]
  dsimp only
  rw [splitChunks_length, if_neg (by omega), happ]

theorem flattenAll_roundtrip :
    ∀ (xs : List PyObj),
      (∀ x ∈ xs, x.valid = true → ∀ (v : List PyObj) (s : Schema),
        flatten_to_tuple x = .ok (v, s) →
        ∃ o, Schema.apply s v = .ok o ∧ pyEq o x = true) →
      PyObj.validList xs = true →
      ∀ (vals : List PyObj) (ss : List Schema) (sizes : List Nat),
        flattenAll xs = .ok (vals, ss, sizes) →
        ∃ objs, Schema.applyAll ss (splitChunks vals sizes) = .ok objs ∧
          objs.length = xs.length ∧ pyEqList objs xs = true := by
  intro xs
  induction xs with
  | nil =>
    intro _ _ vals ss sizes h
    rw [flattenAll] at h
    injection h with h
    injection h with h1 h2
    injection h2 with h2 h3
    subst h1; subst h2; subst h3
    exact ⟨[], by rw [splitChunks, Schema.applyAll], rfl, by rw [pyEqList]⟩
  | cons x rest ih =>
    intro IH hval vals ss sizes h
    rw [flattenAll] at h
    cases hx : flatten_to_tuple x with
    | error e => rw [hx] at h; exact absurd h (by simp)
    | ok p =>
      obtain ⟨v, s⟩ := p
      rw [hx] at h
      cases hrest : flattenAll rest with
      | error e => rw [hrest] at h; exact absurd h (by simp)
      | ok q =>
        obtain ⟨vs, ss', sizes'⟩ := q
        rw [hrest] at h
        dsimp only at h
        injection h with h
        injection h with h1 h2
        injection h2 with h2 h3
        subst h1; subst h2; subst h3
        rw [PyObj.validList, Bool.and_eq_true] at hval
        obtain ⟨hvx, hvrest⟩ := hval
        obtain ⟨o, ho, hoeq⟩ := IH x (List.mem_cons_self _ _) hvx v s hx
        obtain ⟨objs, hobjs, hlen, heq⟩ :=
          ih (fun y hy => IH y (List.mem_cons_of_mem _ hy)) hvrest vs ss' sizes' hrest
        refine ⟨o :: objs, ?_, by simp [hlen], ?_⟩
        · rw [splitChunks_append, Schema.applyAll, ho, hobjs]
        · rw [pyEqList, hoeq, heq]; rfl

theorem flatten_roundtrip_aux :
    ∀ (n : Nat) (obj : PyObj), sizeOf obj ≤ n → obj.valid = true →
      ∀ (vals : List PyObj) (schema : Schema),
        flatten_to_tuple obj = .ok (vals, schema) →
        ∃ o, Schema.apply schema vals = .ok o ∧ pyEq o obj = true := by
  intro n
  induction n using Nat.strong_induction_on with
  | _ n IHn =>
    intro obj hsize hvalid vals schema hflat
    cases obj with
    | str s =>
      rw [flatten_to_tuple] at hflat
      injection hflat with h
      injection h with h1 h2
      subst h1; subst h2
      exact ⟨.str s, by rw [Schema.apply], by simp [pyEq]⟩
    | bytes b =>
      rw [flatten_to_tuple] at hflat
      injection hflat with h
      injection h with h1 h2
      subst h1; subst h2
      exact ⟨.bytes b, by rw [Schema.apply], by simp [pyEq]⟩
    | tensor i =>
      rw [flatten_to_tuple] at hflat
      injection hflat with h
      injection h with h1 h2
      subst h1; subst h2
      exact ⟨.tensor i, by rw [Schema.apply], by simp [pyEq]⟩
    | other i =>
      rw [flatten_to_tuple] at hflat
      injection hflat with h
      injection h with h1 h2
      subst h1; subst h2
      exact ⟨.other i, by rw [Schema.apply], by simp [pyEq]⟩
    | list xs =>
      rw [flatten_to_tuple] at hflat
      cases hAll : flattenAll xs with
      | error e => rw [hAll] at hflat; exact absurd hflat (by simp)
      | ok t =>
        obtain ⟨vals0, ss, sizes⟩ := t
        rw [hAll] at hflat
        dsimp only at hflat
        injection hflat with h
        injection h with h1 h2
        subst h1; subst h2
        rw [PyObj.valid] at hvalid
        obtain ⟨hss, hsizes, hsum⟩ := flattenAll_lengths _ _ _ _ hAll
        have IH : ∀ x ∈ xs, x.valid = true → ∀ (v : List PyObj) (s : Schema),
            flatten_to_tuple x = .ok (v, s) →
            ∃ o, Schema.apply s v = .ok o ∧ pyEq o x = true := by
          intro x hx
          have hlt : sizeOf x < n := by
            have h1 := List.sizeOf_lt_of_mem hx
            simp only [PyObj.list.sizeOf_spec] at hsize
            omega
          exact IHn (sizeOf x) hlt x le_rfl
        obtain ⟨objs, happ, hlen, heq⟩ :=
          flattenAll_roundtrip xs IH hvalid vals0 ss sizes hAll
        refine ⟨.list objs, apply_list_ok hsum (by omega) happ, ?_⟩
        rw [pyEq]
        exact heq
    | tup xs =>
      rw [flatten_to_tuple] at hflat
      cases hAll : flattenAll xs with
      | error e => rw [hAll] at hflat; exact absurd hflat (by simp)
      | ok t =>
        obtain ⟨vals0, ss, sizes⟩ := t
        rw [hAll] at hflat
        dsimp only at hflat
        injection hflat with h
        injection h with h1 h2
        subst h1; subst h2
        rw [PyObj.valid] at hvalid
        obtain ⟨hss, hsizes, hsum⟩ := flattenAll_lengths _ _ _ _ hAll
        have IH : ∀ x ∈ xs, x.valid = true → ∀ (v : List PyObj) (s : Schema),
            flatten_to_tuple x = .ok (v, s) →
            ∃ o, Schema.apply s v = .ok o ∧ pyEq o x = true := by
          intro x hx
          have hlt : sizeOf x < n := by
            have h1 := List.sizeOf_lt_of_mem hx
            simp only [PyObj.tup.sizeOf_spec] at hsize
            omega
          exact IHn (sizeOf x) hlt x le_rfl
        obtain ⟨objs, happ, hlen, heq⟩ :=
          flattenAll_roundtrip xs IH hvalid vals0 ss sizes hAll
        refine ⟨.tup objs, apply_tup_ok hsum (by omega) happ, ?_⟩
        rw [pyEq]
        exact heq
    | dict entries =>
      rw [flatten_to_tuple] at hflat
      by_cases hkeys : (entries.map Prod.fst).any (fun k => ! k.isStr) = true
      · rw [if_pos hkeys] at hflat; exact absurd hflat (by simp)
      · rw [if_neg hkeys] at hflat
        cases hAll : flattenAll ((sortedEntries entries).map Prod.snd) with
        | error e => rw [hAll] at hflat; exact absurd hflat (by simp)
        | ok t =>
          obtain ⟨vals0, ss, sizes⟩ := t
          rw [hAll] at hflat
          dsimp only at hflat
          injection hflat with h
          injection h with h1 h2
          subst h1; subst h2
          rw [PyObj.valid, Bool.and_eq_true] at hvalid
          obtain ⟨hnd, hve⟩ := hvalid
          obtain ⟨hss, hsizes, hsum⟩ := flattenAll_lengths _ _ _ _ hAll
          have hmem : ∀ e ∈ sortedEntries entries, e ∈ entries :=
            fun e he => ((sortedEntries_perm entries).mem_iff).mp he
          have hf : (entries.map Prod.fst).any (fun k => ! k.isStr) = false :=
            Bool.eq_false_iff.mpr hkeys
          have hstrs : ∀ e ∈ sortedEntries entries, (Prod.fst e).isStr = true := by
            intro e he
            have hin : e.1 ∈ entries.map Prod.fst :=
              List.mem_map.mpr ⟨e, hmem e he, rfl⟩
            have hno := List.any_eq_false.mp hf e.1 hin
            simpa using hno
          have hvl : PyObj.validList ((sortedEntries entries).map Prod.snd) = true := by
            rw [validList_iff]
            intro x hx
            obtain ⟨e, he, hex⟩ := List.mem_map.mp hx
            subst hex
            exact (validEntries_iff entries).mp hve e (hmem e he)
          have IH : ∀ x ∈ (sortedEntries entries).map Prod.snd, x.valid = true →
              ∀ (v : List PyObj) (s : Schema), flatten_to_tuple x = .ok (v, s) →
              ∃ o, Schema.apply s v = .ok o ∧ pyEq o x = true := by
            intro x hx
            obtain ⟨e, he, hex⟩ := List.mem_map.mp hx
            have hlt : sizeOf x < n := by
              have h1 := List.sizeOf_lt_of_mem (hmem e he)
              obtain ⟨k, v⟩ := e
              simp only [Prod.mk.sizeOf_spec] at h1
              simp only [PyObj.dict.sizeOf_spec] at hsize
              subst hex
              simp only
              omega
            exact IHn (sizeOf x) hlt x le_rfl
          obtain ⟨objs, happ, hlen, heq⟩ :=
            flattenAll_roundtrip _ IH hvl vals0 ss sizes hAll
          refine ⟨_, apply_dict_ok hsum (by omega) happ, ?_⟩
          rw [pyEq, Bool.and_eq_true]
          constructor
          · simp only [List.length_zip, List.length_map, sortedEntries_length,
              List.length_map] at hlen ⊢
            simp [hlen]
          · exact pyEqEntries_zip _ objs entries heq hmem hnd hstrs

/-- C1: for every valid object built from nested lists, tuples, string-keyed
mappings and arbitrary leaf values, if `flatten_to_tuple obj` returns
`(res, schema)` then applying the schema to the flattened tuple rebuilds an
object Python-equal (`pyEq`, i.e. `==`) to the original. -/
theorem flatten_to_tuple_roundtrip (obj : PyObj) (vals : List PyObj)
    (schema : Schema) (hvalid : obj.valid = true)
    (hflat : flatten_to_tuple obj = .ok (vals, schema)) :
    ∃ o, Schema.apply schema vals = .ok o ∧ pyEq o obj = true :=
  flatten_roundtrip_aux (sizeOf obj) obj le_rfl hvalid vals schema hflat

/-- Witness for C1: the round-trip theorem applied to the concrete dict
`{"a": tensor0}`. -/
theorem flatten_to_tuple_roundtrip_witness :
    (PyObj.dict [(.str "a", .tensor 0)]).valid = true ∧
    flatten_to_tuple (.dict [(.str "a", .tensor 0)]) =
      .ok ([.tensor 0], .dict [.identity] [1] ["a"]) ∧
    ∃ o, Schema.apply (.dict [.identity] [1] ["a"]) [.tensor 0] = .ok o ∧
      pyEq o (.dict [(.str "a", .tensor 0)]) = true := by
  have hv : (PyObj.dict [(.str "a", .tensor 0)]).valid = true := by
    simp [PyObj.valid, PyObj.validEntries, PyObj.validList, keysNodup]
  have hf : flatten_to_tuple (.dict [(.str "a", .tensor 0)]) =
      .ok ([.tensor 0], .dict [.identity] [1] ["a"]) := by
    simp [flatten_to_tuple, flattenAll, sortedEntries, List.insertionSort,
      List.orderedInsert, PyKey.isStr, PyKey.asStr]
  exact ⟨hv, hf, flatten_to_tuple_roundtrip _ _ _ hv hf⟩

theorem flattenAll_leaves :
    ∀ (xs : List PyObj),
      (∀ x ∈ xs, ∀ (v : List PyObj) (s : Schema), flatten_to_tuple x = .ok (v, s) →
        v = specLeafSeq x ∧ ∀ u ∈ v, u.isContainer = false) →
      ∀ (vals : List PyObj) (ss : List Schema) (sizes : List Nat),
        flattenAll xs = .ok (vals, ss, sizes) →
        vals = specLeafSeqAll xs ∧ ∀ v ∈ vals, v.isContainer = false := by
  intro xs
  induction xs with
  | nil =>
    intro _ vals ss sizes h
    rw [flattenAll] at h
    injection h with h
    injection h with h1 h2
    subst h1
    exact ⟨by rw [specLeafSeqAll], by simp⟩
  | cons x rest ih =>
    intro IH vals ss sizes h
    rw [flattenAll] at h
    cases hx : flatten_to_tuple x with
    | error e => rw [hx] at h; exact absurd h (by simp)
    | ok p =>
      obtain ⟨v, s⟩ := p
      rw [hx] at h
      cases hrest : flattenAll rest with
      | error e => rw [hrest] at h; exact absurd h (by simp)
      | ok q =>
        obtain ⟨vs, ss', sizes'⟩ := q
        rw [hrest] at h
        dsimp only at h
        injection h with h
        injection h with h1 h2
        subst h1
        obtain ⟨hv, hvleaf⟩ := IH x (List.mem_cons_self _ _) v s hx
        obtain ⟨hvs, hvsleaf⟩ :=
          ih (fun y hy => IH y (List.mem_cons_of_mem _ hy)) vs ss' sizes' hrest
        constructor
        · rw [specLeafSeqAll, hv, hvs]
        · intro u hu
          rcases List.mem_append.mp hu with h1 | h2
          · exact hvleaf u h1
          · exact hvsleaf u h2

theorem flatten_leaves_aux :
    ∀ (n : Nat) (obj : PyObj), sizeOf obj ≤ n →
      ∀ (vals : List PyObj) (schema : Schema),
        flatten_to_tuple obj = .ok (vals, schema) →
        vals = specLeafSeq obj ∧ ∀ v ∈ vals, v.isContainer = false := by
  intro n
  induction n using Nat.strong_induction_on with
  | _ n IHn =>
    intro obj hsize vals schema hflat
    cases obj with
    | str s =>
      rw [flatten_to_tuple] at hflat
      injection hflat with h
      injection h with h1 h2
      subst h1
      exact ⟨by rw [specLeafSeq], by simp [PyObj.isContainer]⟩
    | bytes b =>
      rw [flatten_to_tuple] at hflat
      injection hflat with h
      injection h with h1 h2
      subst h1
      exact ⟨by rw [specLeafSeq], by simp [PyObj.isContainer]⟩
    | tensor i =>
      rw [flatten_to_tuple] at hflat
      injection hflat with h
      injection h with h1 h2
      subst h1
      exact ⟨by rw [specLeafSeq], by simp [PyObj.isContainer]⟩
    | other i =>
      rw [flatten_to_tuple] at hflat
      injection hflat with h
      injection h with h1 h2
      subst h1
      exact ⟨by rw [specLeafSeq], by simp [PyObj.isContainer]⟩
    | list xs =>
      rw [flatten_to_tuple] at hflat
      cases hAll : flattenAll xs with
      | error e => rw [hAll] at hflat; exact absurd hflat (by simp)
      | ok t =>
        obtain ⟨vals0, ss, sizes⟩ := t
        rw [hAll] at hflat
        dsimp only at hflat
        injection hflat with h
        injection h with h1 h2
        subst h1
        have IH : ∀ x ∈ xs, ∀ (v : List PyObj) (s : Schema),
            flatten_to_tuple x = .ok (v, s) →
            v = specLeafSeq x ∧ ∀ u ∈ v, u.isContainer = false := by
          intro x hx
          have hlt : sizeOf x < n := by
            have h1 := List.sizeOf_lt_of_mem hx
            simp only [PyObj.list.sizeOf_spec] at hsize
            omega
          exact IHn (sizeOf x) hlt x le_rfl
        obtain ⟨hv, hleaf⟩ := flattenAll_leaves xs IH vals0 ss sizes hAll
        exact ⟨by rw [specLeafSeq, hv], hleaf⟩
    | tup xs =>
      rw [flatten_to_tuple] at hflat
      cases hAll : flattenAll xs with
      | error e => rw [hAll] at hflat; exact absurd hflat (by simp)
      | ok t =>
        obtain ⟨vals0, ss, sizes⟩ := t
        rw [hAll] at hflat
        dsimp only at hflat
        injection hflat with h
        injection h with h1 h2
        subst h1
        have IH : ∀ x ∈ xs, ∀ (v : List PyObj) (s : Schema),
            flatten_to_tuple x = .ok (v, s) →
            v = specLeafSeq x ∧ ∀ u ∈ v, u.isContainer = false := by
          intro x hx
          have hlt : sizeOf x < n := by
            have h1 := List.sizeOf_lt_of_mem hx
            simp only [PyObj.tup.sizeOf_spec] at hsize
            omega
          exact IHn (sizeOf x) hlt x le_rfl
        obtain ⟨hv, hleaf⟩ := flattenAll_leaves xs IH vals0 ss sizes hAll
        exact ⟨by rw [specLeafSeq, hv], hleaf⟩
    | dict entries =>
      rw [flatten_to_tuple] at hflat
      by_cases hkeys : (entries.map Prod.fst).any (fun k => ! k.isStr) = true
      · rw [if_pos hkeys] at hflat; exact absurd hflat (by simp)
      · rw [if_neg hkeys] at hflat
        cases hAll : flattenAll ((sortedEntries entries).map Prod.snd) with
        | error e => rw [hAll] at hflat; exact absurd hflat (by simp)
        | ok t =>
          obtain ⟨vals0, ss, sizes⟩ := t
          rw [hAll] at hflat
          dsimp only at hflat
          injection hflat with h
          injection h with h1 h2
          subst h1
          have IH : ∀ x ∈ (sortedEntries entries).map Prod.snd,
              ∀ (v : List PyObj) (s : Schema), flatten_to_tuple x = .ok (v, s) →
              v = specLeafSeq x ∧ ∀ u ∈ v, u.isContainer = false := by
            intro x hx
            obtain ⟨e, he, hex⟩ := List.mem_map.mp hx
            have hlt : sizeOf x < n := by
              have h1 := List.sizeOf_lt_of_mem
                (((sortedEntries_perm entries).mem_iff).mp he)
              obtain ⟨k, v⟩ := e
              simp only [Prod.mk.sizeOf_spec] at h1
              simp only [PyObj.dict.sizeOf_spec] at hsize
              subst hex
              simp only
              omega
            exact IHn (sizeOf x) hlt x le_rfl
          obtain ⟨hv, hleaf⟩ := flattenAll_leaves _ IH vals0 ss sizes hAll
          exact ⟨by rw [specLeafSeq, hv], hleaf⟩

/-- C2: for every object, the first component returned by `flatten_to_tuple`
is a flat tuple whose elements are exactly the leaf (non-list, non-tuple,
non-mapping) values of the object in order — list and tuple elements in
element order, mapping values in sorted-key order (`specLeafSeq`) — and in
particular no element of the result is itself a list, tuple or mapping. -/
theorem flatten_to_tuple_flat_result (obj : PyObj) (vals : List PyObj)
    (schema : Schema) (hflat : flatten_to_tuple obj = .ok (vals, schema)) :
    vals = specLeafSeq obj ∧ ∀ v ∈ vals, v.isContainer = false :=
  flatten_leaves_aux (sizeOf obj) obj le_rfl vals schema hflat

/-- Witness for C2: the flat-result theorem applied to the concrete object
`[tensor0, {"b": tensor1, "a": "x"}]`. -/
theorem flatten_to_tuple_flat_result_witness :
    flatten_to_tuple
        (.list [.tensor 0, .dict [(.str "b", .tensor 1), (.str "a", .str "x")]]) =
      .ok ([.tensor 0, .str "x", .tensor 1],
        .list [.identity, .dict [.identity, .identity] [1, 1] ["a", "b"]] [1, 2]) ∧
    [PyObj.tensor 0, PyObj.str "x", PyObj.tensor 1] =
      specLeafSeq
        (.list [.tensor 0, .dict [(.str "b", .tensor 1), (.str "a", .str "x")]]) ∧
    ∀ v ∈ [PyObj.tensor 0, PyObj.str "x", PyObj.tensor 1],
      v.isContainer = false := by
  have hsort : sortedEntries [(PyKey.str "b", PyObj.tensor 1),
        (PyKey.str "a", PyObj.str "x")] =
      [(PyKey.str "a", PyObj.str "x"), (PyKey.str "b", PyObj.tensor 1)] := by
    rw [sortedEntries, List.insertionSort, List.insertionSort, List.insertionSort,
      List.orderedInsert, List.orderedInsert,
      if_neg (by simp only [entryLE, PyKey.asStr, String.le_iff_toList_le]; decide),
      List.orderedInsert]
  have hf : flatten_to_tuple
      (.list [.tensor 0, .dict [(.str "b", .tensor 1), (.str "a", .str "x")]]) =
      .ok ([.tensor 0, .str "x", .tensor 1],
        .list [.identity, .dict [.identity, .identity] [1, 1] ["a", "b"]] [1, 2]) := by
    simp [flatten_to_tuple, flattenAll, hsort, PyKey.isStr, PyKey.asStr]
  have h := flatten_to_tuple_flat_result _ _ _ hf
  exact ⟨hf, h.1, h.2⟩

theorem perm_any_eq {l₁ l₂ : List PyObj} {p : PyObj → Bool} (h : l₁.Perm l₂) :
    l₁.any p = l₂.any p := by
  rcases h1 : l₁.any p with _ | _ <;> rcases h2 : l₂.any p with _ | _ <;> try rfl
  · rw [List.any_eq_true] at h2
    obtain ⟨x, hx, hpx⟩ := h2
    rw [List.any_eq_false] at h1
    exact absurd hpx (h1 x (h.mem_iff.mpr hx))
  · rw [List.any_eq_true] at h1
    obtain ⟨x, hx, hpx⟩ := h1
    rw [List.any_eq_false] at h2
    exact absurd hpx (h2 x (h.mem_iff.mp hx))

theorem hasNonStrKeyList_eq_any (xs : List PyObj) :
    hasNonStrKeyList xs = xs.any hasNonStrKey := by
  induction xs with
  | nil => rw [hasNonStrKeyList]; rfl
  | cons x rest ih => rw [hasNonStrKeyList, List.any_cons, ih]

theorem hasNonStrKeyEntries_eq (l : List (PyKey × PyObj)) :
    hasNonStrKeyEntries l = (l.map Prod.snd).any hasNonStrKey := by
  induction l with
  | nil => rw [hasNonStrKeyEntries]; rfl
  | cons e rest ih =>
    cases e with
    | mk k v => rw [hasNonStrKeyEntries, List.map_cons, List.any_cons, ih]

theorem flattenAll_keyerr (xs : List PyObj)
    (IH : ∀ x ∈ xs,
      (hasNonStrKey x = true → flatten_to_tuple x = .error .keyError) ∧
      (hasNonStrKey x = false → ∃ r, flatten_to_tuple x = .ok r)) :
    (hasNonStrKeyList xs = true → flattenAll xs = .error .keyError) ∧
    (hasNonStrKeyList xs = false → ∃ r, flattenAll xs = .ok r) := by
  induction xs with
  | nil =>
    refine ⟨fun h => ?_, fun _ => ⟨([], [], []), by rw [flattenAll]⟩⟩
    rw [hasNonStrKeyList] at h
    exact absurd h (by simp)
  | cons x rest ih =>
    have IH' := fun y hy => IH y (List.mem_cons_of_mem _ hy)
    have IHx := IH x (List.mem_cons_self _ _)
    obtain ⟨ihT, ihF⟩ := ih IH'
    constructor
    · intro h
      rw [hasNonStrKeyList, Bool.or_eq_true] at h
      cases hx : hasNonStrKey x with
      | true => rw [flattenAll, IHx.1 hx]
      | false =>
        have hrest : hasNonStrKeyList rest = true := by
          rcases h with h | h
          · rw [hx] at h; exact absurd h (by simp)
          · exact h
        obtain ⟨⟨v, s⟩, hv⟩ := IHx.2 hx
        rw [flattenAll, hv, ihT hrest]
    · intro h
      rw [hasNonStrKeyList, Bool.or_eq_false_iff] at h
      obtain ⟨hx, hrest⟩ := h
      obtain ⟨⟨v, s⟩, hv⟩ := IHx.2 hx
      obtain ⟨⟨vs, ss, sizes⟩, hvs⟩ := ihF hrest
      exact ⟨(v ++ vs, s :: ss, v.length :: sizes), by rw [flattenAll, hv, hvs]⟩

theorem flatten_keyerr_aux :
    ∀ (n : Nat) (obj : PyObj), sizeOf obj ≤ n →
      (hasNonStrKey obj = true → flatten_to_tuple obj = .error .keyError) ∧
      (hasNonStrKey obj = false → ∃ r, flatten_to_tuple obj = .ok r) := by
  intro n
  induction n using Nat.strong_induction_on with
  | _ n IHn =>
    intro obj hsize
    cases obj with
    | str s =>
      refine ⟨fun h => ?_, fun _ => ⟨_, by rw [flatten_to_tuple]⟩⟩
      simp [hasNonStrKey] at h
    | bytes b =>
      refine ⟨fun h => ?_, fun _ => ⟨_, by rw [flatten_to_tuple]⟩⟩
      simp [hasNonStrKey] at h
    | tensor i =>
      refine ⟨fun h => ?_, fun _ => ⟨_, by rw [flatten_to_tuple]⟩⟩
      simp [hasNonStrKey] at h
    | other i =>
      refine ⟨fun h => ?_, fun _ => ⟨_, by rw [flatten_to_tuple]⟩⟩
      simp [hasNonStrKey] at h
    | list xs =>
      have IH : ∀ x ∈ xs,
          (hasNonStrKey x = true → flatten_to_tuple x = .error .keyError) ∧
          (hasNonStrKey x = false → ∃ r, flatten_to_tuple x = .ok r) := by
        intro x hx
        have hlt : sizeOf x < n := by
          have h1 := List.sizeOf_lt_of_mem hx
          simp only [PyObj.list.sizeOf_spec] at hsize
          omega
        exact IHn (sizeOf x) hlt x le_rfl
      obtain ⟨hT, hF⟩ := flattenAll_keyerr xs IH
      constructor
      · intro h
        rw [hasNonStrKey] at h
        rw [flatten_to_tuple, hT h]
      · intro h
        rw [hasNonStrKey] at h
        obtain ⟨⟨vs, ss, sizes⟩, hr⟩ := hF h
        exact ⟨_, by rw [flatten_to_tuple, hr]⟩
    | tup xs =>
      have IH : ∀ x ∈ xs,
          (hasNonStrKey x = true → flatten_to_tuple x = .error .keyError) ∧
          (hasNonStrKey x = false → ∃ r, flatten_to_tuple x = .ok r) := by
        intro x hx
        have hlt : sizeOf x < n := by
          have h1 := List.sizeOf_lt_of_mem hx
          simp only [PyObj.tup.sizeOf_spec] at hsize
          omega
        exact IHn (sizeOf x) hlt x le_rfl
      obtain ⟨hT, hF⟩ := flattenAll_keyerr xs IH
      constructor
      · intro h
        rw [hasNonStrKey] at h
        rw [flatten_to_tuple, hT h]
      · intro h
        rw [hasNonStrKey] at h
        obtain ⟨⟨vs, ss, sizes⟩, hr⟩ := hF h
        exact ⟨_, by rw [flatten_to_tuple, hr]⟩
    | dict entries =>
      have IH : ∀ x ∈ (sortedEntries entries).map Prod.snd,
          (hasNonStrKey x = true → flatten_to_tuple x = .error .keyError) ∧
          (hasNonStrKey x = false → ∃ r, flatten_to_tuple x = .ok r) := by
        intro x hx
        obtain ⟨e, he, hex⟩ := List.mem_map.mp hx
        have hlt : sizeOf x < n := by
          have h1 := List.sizeOf_lt_of_mem
            (((sortedEntries_perm entries).mem_iff).mp he)
          obtain ⟨k, v⟩ := e
          simp only [Prod.mk.sizeOf_spec] at h1
          simp only [PyObj.dict.sizeOf_spec] at hsize
          subst hex
          simp only
          omega
        exact IHn (sizeOf x) hlt x le_rfl
      obtain ⟨hT, hF⟩ := flattenAll_keyerr _ IH
      have hvals : hasNonStrKeyList ((sortedEntries entries).map Prod.snd)
          = hasNonStrKeyEntries entries := by
        rw [hasNonStrKeyList_eq_any, hasNonStrKeyEntries_eq]
        exact perm_any_eq ((sortedEntries_perm entries).map Prod.snd)
      constructor
      · intro h
        rw [hasNonStrKey, Bool.or_eq_true] at h
        by_cases hbad : (entries.map Prod.fst).any (fun k => ! k.isStr) = true
        · rw [flatten_to_tuple, if_pos hbad]
        · have hent : hasNonStrKeyEntries entries = true := by
            rcases h with h | h
            · exact absurd h hbad
            · exact h
          rw [flatten_to_tuple, if_neg hbad, hT (hvals.trans hent)]
      · intro h
        rw [hasNonStrKey, Bool.or_eq_false_iff] at h
        obtain ⟨hbad, hent⟩ := h
        obtain ⟨⟨vs, ss, sizes⟩, hr⟩ := hF (hvals.trans hent)
        refine ⟨(vs, .dict ss sizes ((sortedEntries entries).map fun e => e.1.asStr)), ?_⟩
        rw [flatten_to_tuple, if_neg (by rw [hbad]; simp), hr]

/-- C3: `flatten_to_tuple` raises KeyError exactly when the object, or a
container nested inside it, is a mapping with at least one non-`str` key;
for objects whose mappings all have `str` keys it raises no error at all
(KeyError is moreover the only exception it can raise). -/
theorem flatten_to_tuple_keyerror (obj : PyObj) :
    (flatten_to_tuple obj = .error PyErr.keyError ↔ hasNonStrKey obj = true) ∧
    (∀ e, flatten_to_tuple obj = .error e → e = PyErr.keyError) := by
  obtain ⟨hT, hF⟩ := flatten_keyerr_aux (sizeOf obj) obj le_rfl
  refine ⟨⟨fun herr => ?_, hT⟩, fun e he => ?_⟩
  · cases hb : hasNonStrKey obj with
    | true => rfl
    | false =>
      obtain ⟨r, hr⟩ := hF hb
      rw [hr] at herr
      exact absurd herr (by simp)
  · cases hb : hasNonStrKey obj with
    | true =>
      rw [hT hb] at he
      injection he with he
      exact he.symm
    | false =>
      obtain ⟨r, hr⟩ := hF hb
      rw [hr] at he
      exact absurd he (by simp)

/-- Witness for C3: the KeyError characterization applied to the concrete
mapping `{1: tensor1}` with a non-str key. -/
theorem flatten_to_tuple_keyerror_witness :
    hasNonStrKey (.dict [(.nonStr 1, .tensor 1)]) = true ∧
    flatten_to_tuple (.dict [(.nonStr 1, .tensor 1)]) = .error PyErr.keyError := by
  have hb : hasNonStrKey (.dict [(.nonStr 1, .tensor 1)]) = true := by
    simp [hasNonStrKey, PyKey.isStr]
  exact ⟨hb, (flatten_to_tuple_keyerror _).1.mpr hb⟩

theorem flattenAll_sizes (xs : List PyObj)
    (IH : ∀ x ∈ xs, ∀ (v : List PyObj) (s : Schema),
      flatten_to_tuple x = .ok (v, s) →
      s.wellSized = true ∧ v.length = s.flatLen) :
    ∀ (vals : List PyObj) (ss : List Schema) (sizes : List Nat),
      flattenAll xs = .ok (vals, ss, sizes) →
      Schema.wellSizedAll ss = true ∧ sizes = ss.map Schema.flatLen ∧
      ss.length = xs.length ∧ sizes.length = xs.length ∧
      vals.length = sizes.sum ∧
      ∀ p ∈ xs.zip sizes, ∃ (v : List PyObj) (s : Schema),
        flatten_to_tuple p.1 = .ok (v, s) ∧ p.2 = v.length := by
  induction xs with
  | nil =>
    intro vals ss sizes h
    rw [flattenAll] at h
    injection h with h
    injection h with h1 h2
    injection h2 with h2 h3
    subst h1; subst h2; subst h3
    exact ⟨by rw [Schema.wellSizedAll], by simp, by simp, by simp, by simp, by simp⟩
  | cons x rest ih =>
    intro vals ss sizes h
    rw [flattenAll] at h
    cases hx : flatten_to_tuple x with
    | error e => rw [hx] at h; exact absurd h (by simp)
    | ok p =>
      obtain ⟨v, s⟩ := p
      rw [hx] at h
      cases hrest : flattenAll rest with
      | error e => rw [hrest] at h; exact absurd h (by simp)
      | ok q =>
        obtain ⟨vs, ss', sizes'⟩ := q
        rw [hrest] at h
        dsimp only at h
        injection h with h
        injection h with h1 h2
        injection h2 with h2 h3
        subst h1; subst h2; subst h3
        obtain ⟨hws, hlen⟩ := IH x (List.mem_cons_self _ _) v s hx
        obtain ⟨ihws, ihmap, ihss, ihsz, ihsum, ihzip⟩ :=
          ih (fun y hy => IH y (List.mem_cons_of_mem _ hy)) vs ss' sizes' hrest
        refine ⟨?_, ?_, by simp [ihss], by simp [ihsz], by simp [ihsum], ?_⟩
        · rw [Schema.wellSizedAll, Bool.and_eq_true]
          exact ⟨hws, ihws⟩
        · rw [List.map_cons, ← hlen, ihmap]
        · intro p hp
          rw [List.zip_cons_cons] at hp
          rcases List.mem_cons.mp hp with heq | hmem
          · subst heq
            exact ⟨v, s, hx, rfl⟩
          · exact ihzip p hmem

theorem flatten_sizes_aux :
    ∀ (n : Nat) (obj : PyObj), sizeOf obj ≤ n →
      ∀ (vals : List PyObj) (schema : Schema),
        flatten_to_tuple obj = .ok (vals, schema) →
        schema.wellSized = true ∧ vals.length = schema.flatLen := by
  intro n
  induction n using Nat.strong_induction_on with
  | _ n IHn =>
    intro obj hsize vals schema hflat
    cases obj with
    | str s =>
      rw [flatten_to_tuple] at hflat
      injection hflat with h
      injection h with h1 h2
      subst h1; subst h2
      exact ⟨by rw [Schema.wellSized], by rw [Schema.flatLen]; rfl⟩
    | bytes b =>
      rw [flatten_to_tuple] at hflat
      injection hflat with h
      injection h with h1 h2
      subst h1; subst h2
      exact ⟨by rw [Schema.wellSized], by rw [Schema.flatLen]; rfl⟩
    | tensor i =>
      rw [flatten_to_tuple] at hflat
      injection hflat with h
      injection h with h1 h2
      subst h1; subst h2
      exact ⟨by rw [Schema.wellSized], by rw [Schema.flatLen]; rfl⟩
    | other i =>
      rw [flatten_to_tuple] at hflat
      injection hflat with h
      injection h with h1 h2
      subst h1; subst h2
      exact ⟨by rw [Schema.wellSized], by rw [Schema.flatLen]; rfl⟩
    | list xs =>
      rw [flatten_to_tuple] at hflat
      cases hAll : flattenAll xs with
      | error e => rw [hAll] at hflat; exact absurd hflat (by simp)
      | ok t =>
        obtain ⟨vals0, ss, sizes⟩ := t
        rw [hAll] at hflat
        dsimp only at hflat
        injection hflat with h
        injection h with h1 h2
        subst h1; subst h2
        have IH : ∀ x ∈ xs, ∀ (v : List PyObj) (s : Schema),
            flatten_to_tuple x = .ok (v, s) →
            s.wellSized = true ∧ v.length = s.flatLen := by
          intro x hx
          have hlt : sizeOf x < n := by
            have h1 := List.sizeOf_lt_of_mem hx
            simp only [PyObj.list.sizeOf_spec] at hsize
            omega
          exact IHn (sizeOf x) hlt x le_rfl
        obtain ⟨hws, hmap, hss, hsz, hsum, _⟩ := flattenAll_sizes xs IH vals0 ss sizes hAll
        constructor
        · rw [Schema.wellSized, Bool.and_eq_true, Bool.and_eq_true]
          exact ⟨⟨decide_eq_true (by omega), decide_eq_true hmap⟩, hws⟩
        · rw [Schema.flatLen]; exact hsum
    | tup xs =>
      rw [flatten_to_tuple] at hflat
      cases hAll : flattenAll xs with
      | error e => rw [hAll] at hflat; exact absurd hflat (by simp)
      | ok t =>
        obtain ⟨vals0, ss, sizes⟩ := t
        rw [hAll] at hflat
        dsimp only at hflat
        injection hflat with h
        injection h with h1 h2
        subst h1; subst h2
        have IH : ∀ x ∈ xs, ∀ (v : List PyObj) (s : Schema),
            flatten_to_tuple x = .ok (v, s) →
            s.wellSized = true ∧ v.length = s.flatLen := by
          intro x hx
          have hlt : sizeOf x < n := by
            have h1 := List.sizeOf_lt_of_mem hx
            simp only [PyObj.tup.sizeOf_spec] at hsize
            omega
          exact IHn (sizeOf x) hlt x le_rfl
        obtain ⟨hws, hmap, hss, hsz, hsum, _⟩ := flattenAll_sizes xs IH vals0 ss sizes hAll
        constructor
        · rw [Schema.wellSized, Bool.and_eq_true, Bool.and_eq_true]
          exact ⟨⟨decide_eq_true (by omega), decide_eq_true hmap⟩, hws⟩
        · rw [Schema.flatLen]; exact hsum
    | dict entries =>
      rw [flatten_to_tuple] at hflat
      by_cases hkeys : (entries.map Prod.fst).any (fun k => ! k.isStr) = true
      · rw [if_pos hkeys] at hflat; exact absurd hflat (by simp)
      · rw [if_neg hkeys] at hflat
        cases hAll : flattenAll ((sortedEntries entries).map Prod.snd) with
        | error e => rw [hAll] at hflat; exact absurd hflat (by simp)
        | ok t =>
          obtain ⟨vals0, ss, sizes⟩ := t
          rw [hAll] at hflat
          dsimp only at hflat
          injection hflat with h
          injection h with h1 h2
          subst h1; subst h2
          have IH : ∀ x ∈ (sortedEntries entries).map Prod.snd,
              ∀ (v : List PyObj) (s : Schema), flatten_to_tuple x = .ok (v, s) →
              s.wellSized = true ∧ v.length = s.flatLen := by
            intro x hx
            obtain ⟨e, he, hex⟩ := List.mem_map.mp hx
            have hlt : sizeOf x < n := by
              have h1 := List.sizeOf_lt_of_mem
                (((sortedEntries_perm entries).mem_iff).mp he)
              obtain ⟨k, v⟩ := e
              simp only [Prod.mk.sizeOf_spec] at h1
              simp only [PyObj.dict.sizeOf_spec] at hsize
              subst hex
              simp only
              omega
            exact IHn (sizeOf x) hlt x le_rfl
          obtain ⟨hws, hmap, hss, hsz, hsum, _⟩ := flattenAll_sizes _ IH vals0 ss sizes hAll
          constructor
          · rw [Schema.wellSized, Bool.and_eq_true, Bool.and_eq_true]
            exact ⟨⟨decide_eq_true (by omega), decide_eq_true hmap⟩, hws⟩
          · rw [Schema.flatLen]; exact hsum

/-- C5: every schema produced by `flatten_to_tuple` satisfies
`len(schemas) == len(sizes)` with each entry of `sizes` equal to the
flattened length of the corresponding element schema, recursively at every
nesting level (`wellSized`); the sum of `sizes` equals the length of the
flattened tuple returned alongside the schema (`flatLen`); and for the
container itself each entry of `sizes` is the length of the flattened tuple
of the corresponding element of the object. -/
theorem flatten_to_tuple_size_invariant (obj : PyObj) (vals : List PyObj)
    (schema : Schema) (hflat : flatten_to_tuple obj = .ok (vals, schema)) :
    schema.wellSized = true ∧ vals.length = schema.flatLen ∧
    ∀ (xs : List PyObj) (sizes : List Nat),
      containerElems obj = some xs → schema.sizesOf = some sizes →
      sizes.length = xs.length ∧
      ∀ p ∈ xs.zip sizes, ∃ (v : List PyObj) (s : Schema),
        flatten_to_tuple p.1 = .ok (v, s) ∧ p.2 = v.length := by
  obtain ⟨hws, hlen⟩ := flatten_sizes_aux (sizeOf obj) obj le_rfl vals schema hflat
  refine ⟨hws, hlen, ?_⟩
  intro xs sizes hxs hsizes
  have IH : ∀ x ∈ xs, ∀ (v : List PyObj) (s : Schema),
      flatten_to_tuple x = .ok (v, s) →
      s.wellSized = true ∧ v.length = s.flatLen :=
    fun x _ v s h => flatten_sizes_aux (sizeOf x) x le_rfl v s h
  cases obj with
  | str s => simp [containerElems] at hxs
  | bytes b => simp [containerElems] at hxs
  | tensor i => simp [containerElems] at hxs
  | other i => simp [containerElems] at hxs
  | list xs' =>
    rw [containerElems] at hxs
    injection hxs with hxs
    subst hxs
    rw [flatten_to_tuple] at hflat
    cases hAll : flattenAll xs' with
    | error e => rw [hAll] at hflat; exact absurd hflat (by simp)
    | ok t =>
      obtain ⟨vals0, ss, sizes0⟩ := t
      rw [hAll] at hflat
      dsimp only at hflat
      injection hflat with h
      injection h with h1 h2
      subst h1; subst h2
      rw [Schema.sizesOf] at hsizes
      injection hsizes with hsizes
      subst hsizes
      obtain ⟨_, _, _, hsz, _, hzip⟩ := flattenAll_sizes _ IH _ _ _ hAll
      exact ⟨hsz, hzip⟩
  | tup xs' =>
    rw [containerElems] at hxs
    injection hxs with hxs
    subst hxs
    rw [flatten_to_tuple] at hflat
    cases hAll : flattenAll xs' with
    | error e => rw [hAll] at hflat; exact absurd hflat (by simp)
    | ok t =>
      obtain ⟨vals0, ss, sizes0⟩ := t
      rw [hAll] at hflat
      dsimp only at hflat
      injection hflat with h
      injection h with h1 h2
      subst h1; subst h2
      rw [Schema.sizesOf] at hsizes
      injection hsizes with hsizes
      subst hsizes
      obtain ⟨_, _, _, hsz, _, hzip⟩ := flattenAll_sizes _ IH _ _ _ hAll
      exact ⟨hsz, hzip⟩
  | dict entries =>
    rw [containerElems] at hxs
    injection hxs with hxs
    subst hxs
    rw [flatten_to_tuple] at hflat
    by_cases hkeys : (entries.map Prod.fst).any (fun k => ! k.isStr) = true
    · rw [if_pos hkeys] at hflat; exact absurd hflat (by simp)
    · rw [if_neg hkeys] at hflat
      cases hAll : flattenAll ((sortedEntries entries).map Prod.snd) with
      | error e => rw [hAll] at hflat; exact absurd hflat (by simp)
      | ok t =>
        obtain ⟨vals0, ss, sizes0⟩ := t
        rw [hAll] at hflat
        dsimp only at hflat
        injection hflat with h
        injection h with h1 h2
        subst h1; subst h2
        rw [Schema.sizesOf] at hsizes
        injection hsizes with hsizes
        subst hsizes
        obtain ⟨_, _, _, hsz, _, hzip⟩ := flattenAll_sizes _ IH _ _ _ hAll
        exact ⟨hsz, hzip⟩

/-- Witness for C5: the size invariant applied to the flattening of the
concrete object `[tensor0, ("x", tensor1)]`. -/
theorem flatten_to_tuple_size_invariant_witness :
    flatten_to_tuple (.list [.tensor 0, .tup [.str "x", .tensor 1]]) =
      .ok ([.tensor 0, .str "x", .tensor 1],
        .list [.identity, .tup [.identity, .identity] [1, 1]] [1, 2]) ∧
    (Schema.list [.identity, .tup [.identity, .identity] [1, 1]] [1, 2]).wellSized
      = true ∧
    (3 : Nat) =
      (Schema.list [.identity, .tup [.identity, .identity] [1, 1]] [1, 2]).flatLen := by
  have hf : flatten_to_tuple (.list [.tensor 0, .tup [.str "x", .tensor 1]]) =
      .ok ([.tensor 0, .str "x", .tensor 1],
        .list [.identity, .tup [.identity, .identity] [1, 1]] [1, 2]) := by
    simp [flatten_to_tuple, flattenAll]
  have h := flatten_to_tuple_size_invariant _ _ _ hf
  exact ⟨hf, h.1, h.2.1⟩

/-- C9: strings and bytes are atomic leaves — `flatten_to_tuple` on a `str`
or `bytes` value returns the single-element tuple holding the value itself
with an `IdentitySchema`, without decomposing the sequence into characters;
the same single-leaf treatment applies to every object that is not a list,
tuple or mapping. -/
theorem flatten_to_tuple_atomic_leaves :
    (∀ s, flatten_to_tuple (.str s) = .ok ([.str s], .identity)) ∧
    (∀ b, flatten_to_tuple (.bytes b) = .ok ([.bytes b], .identity)) ∧
    (∀ obj : PyObj, obj.isContainer = false →
      flatten_to_tuple obj = .ok ([obj], .identity)) := by
  refine ⟨fun s => by rw [flatten_to_tuple], fun b => by rw [flatten_to_tuple], ?_⟩
  intro obj h
  cases obj with
  | str s => rw [flatten_to_tuple]
  | bytes b => rw [flatten_to_tuple]
  | tensor i => rw [flatten_to_tuple]
  | other i => rw [flatten_to_tuple]
  | list xs => simp [PyObj.isContainer] at h
  | tup xs => simp [PyObj.isContainer] at h
  | dict entries => simp [PyObj.isContainer] at h

/-- Witness for C9: the atomic-leaf theorem applied to the concrete string
`"ab"`. -/
theorem flatten_to_tuple_atomic_leaves_witness :
    (PyObj.str "ab").isContainer = false ∧
    flatten_to_tuple (.str "ab") = .ok ([.str "ab"], .identity) :=
  ⟨rfl, flatten_to_tuple_atomic_leaves.2.2 (.str "ab") rfl⟩

/-- C10: `flop_count_operators` and `_wrapper_count_operators` save
`model.training`, switch the model to eval mode for counting, and restore
the saved flag before returning: whenever they return normally, the
training flag afterwards equals its value before the call, whatever the
opaque fvcore counting call did to the model. -/
theorem count_operators_restore_training :
    (∀ (α : Type) (count : ModelState → Except PyErr (ModelState × α))
        (model m' : ModelState) (r : α),
        flop_count_operators count model = .ok (m', r) →
        m'.training = model.training) ∧
    (∀ (α : Type) (fc ac : ModelState → PyObj → Except PyErr (ModelState × α))
        (model m' : ModelState) (inputs : List (List (PyKey × PyObj)))
        (mode : String) (r : α),
        _wrapper_count_operators fc ac model inputs mode = .ok (m', r) →
        m'.training = model.training) := by
  constructor
  · intro α count model m' r h
    rw [flop_count_operators] at h
    cases hc : count model.eval with
    | error e => rw [hc] at h; exact absurd h (by simp)
    | ok p =>
      obtain ⟨m2, ret⟩ := p
      rw [hc] at h
      dsimp only at h
      injection h with h
      injection h with h1 h2
      rw [← h1]
      rfl
  · intro α fc ac model m' inputs mode r h
    cases inputs with
    | nil => rw [_wrapper_count_operators] at h; exact absurd h (by simp)
    | cons entries tl =>
    cases tl with
    | cons e2 tl2 => rw [_wrapper_count_operators] at h; exact absurd h (by simp)
    | nil =>
      rw [_wrapper_count_operators] at h
      cases hlk : lookupKey (.str "image") entries with
      | none => rw [hlk] at h; exact absurd h (by simp)
      | some tensor_input =>
        rw [hlk] at h
        dsimp only at h
        cases hinit : TracingAdapter.init
            (.list [.dict [(.str "image", tensor_input)]]) false with
        | error e => rw [hinit] at h; exact absurd h (by simp)
        | ok w =>
          rw [hinit] at h
          dsimp only at h
          by_cases hm1 : mode = FLOPS_MODE
          · rw [if_pos hm1] at h
            cases hfc : fc model.eval tensor_input with
            | error e => rw [hfc] at h; exact absurd h (by simp)
            | ok p =>
              obtain ⟨m2, ret⟩ := p
              rw [hfc] at h
              dsimp only at h
              injection h with h
              injection h with h1 h2
              rw [← h1]
              rfl
          · rw [if_neg hm1] at h
            by_cases hm2 : mode = ACTIVATIONS_MODE
            · rw [if_pos hm2] at h
              cases hac : ac model.eval tensor_input with
              | error e => rw [hac] at h; exact absurd h (by simp)
              | ok p =>
                obtain ⟨m2, ret⟩ := p
                rw [hac] at h
                dsimp only at h
                injection h with h
                injection h with h1 h2
                rw [← h1]
                rfl
            · rw [if_neg hm2] at h
              exact absurd h (by simp)

/-- Witness for C10: both restore statements applied to a concrete model in
training mode with counters that return normally. -/
theorem count_operators_restore_training_witness :
    flop_count_operators (fun m => .ok (m, (0 : Nat))) ⟨true, 7⟩ =
      .ok (⟨true, 7⟩, 0) ∧
    (⟨true, 7⟩ : ModelState).training = (⟨true, 7⟩ : ModelState).training ∧
    _wrapper_count_operators (fun m _ => .ok (m, (0 : Nat)))
        (fun m _ => .ok (m, 0)) ⟨true, 7⟩ [[(.str "image", .tensor 0)]]
        "flops" = .ok (⟨true, 7⟩, 0) := by
  have h1 : flop_count_operators (fun m => .ok (m, (0 : Nat))) ⟨true, 7⟩ =
      .ok (⟨true, 7⟩, 0) := rfl
  have h2 : _wrapper_count_operators (fun m _ => .ok (m, (0 : Nat)))
      (fun m _ => .ok (m, 0)) ⟨true, 7⟩ [[(.str "image", .tensor 0)]]
      "flops" = .ok (⟨true, 7⟩, 0) := by
    rw [_wrapper_count_operators]
    have hinit : TracingAdapter.init (.list [.dict [(.str "image", .tensor 0)]])
        false = .ok ⟨.tup [.list [.dict [(.str "image", .tensor 0)]]], false,
          [.tensor 0], some (.tup [.list [.dict [.identity] [1] ["image"]] [1]] [1])⟩ := by
      rw [TracingAdapter.init]
      have hf : flatten_to_tuple
          (wrapInputs (.list [.dict [(.str "image", .tensor 0)]])) =
          .ok ([.tensor 0],
            .tup [.list [.dict [.identity] [1] ["image"]] [1]] [1]) := by
        simp [wrapInputs, flatten_to_tuple, flattenAll, sortedEntries,
          List.insertionSort, List.orderedInsert, PyKey.isStr, PyKey.asStr]
      rw [hf]
      rfl
    have hlook : lookupKey (.str "image") [(.str "image", .tensor 0)] =
        some (.tensor 0) := by
      rw [lookupKey, if_pos rfl]
    rw [hlook]
    dsimp only
    rw [hinit]
    dsimp only
    rw [if_pos (show "flops" = FLOPS_MODE from rfl)]
    rfl
  exact ⟨h1, count_operators_restore_training.1 Nat _ _ _ _ h1, h2⟩

/-- C4: `TracingAdapter.__init__` with `allow_non_tensor=False` raises
ValueError exactly when some element of the flattened inputs is not a
tensor; with `allow_non_tensor=True` it never raises for this reason, and
when non-tensors are present it filters them out of `flattened_inputs` and
sets `inputs_schema` to `None`. -/
theorem tracing_adapter_input_check (inputs : PyObj) (vals : List PyObj)
    (schema : Schema)
    (hflat : flatten_to_tuple (wrapInputs inputs) = .ok (vals, schema)) :
    (TracingAdapter.init inputs false = .error PyErr.valueError ↔
      vals.any (fun v => ! v.isTensor) = true) ∧
    ∃ st, TracingAdapter.init inputs true = .ok st ∧
      (vals.any (fun v => ! v.isTensor) = true →
        st.flattened_inputs = vals.filter (fun v => v.isTensor) ∧
        st.inputs_schema = none) := by
  have hinit : ∀ allow, TracingAdapter.init inputs allow =
      (if vals.all (fun x => x.isTensor) then
        .ok ⟨wrapInputs inputs, allow, vals, some schema⟩
      else if allow then
        .ok ⟨wrapInputs inputs, allow,
          vals.filter (fun x => x.isTensor), none⟩
      else .error .valueError) := by
    intro allow
    rw [TracingAdapter.init, hflat]
  cases hall : vals.all (fun x => x.isTensor) with
  | true =>
    have hany : vals.any (fun v => ! v.isTensor) = false := by
      rw [List.any_eq_false]
      intro x hx
      have := List.all_eq_true.mp hall x hx
      simp [this]
    constructor
    · rw [hinit false, if_pos hall, hany]
      simp
    · refine ⟨⟨wrapInputs inputs, true, vals, some schema⟩,
        by rw [hinit true, if_pos hall], fun hcon => ?_⟩
      rw [hany] at hcon
      cases hcon
  | false =>
    have hany : vals.any (fun v => ! v.isTensor) = true := by
      rw [List.all_eq_false] at hall
      obtain ⟨x, hx, hpx⟩ := hall
      rw [List.any_eq_true]
      exact ⟨x, hx, by simp [hpx]⟩
    constructor
    · rw [hinit false, if_neg (by rw [hall]; simp), hany]
      simp
    · refine ⟨⟨wrapInputs inputs, true,
        vals.filter (fun x => x.isTensor), none⟩, ?_, fun _ => ⟨rfl, rfl⟩⟩
      rw [hinit true, if_neg (by rw [hall]; simp)]
      rfl

/-- Witness for C4: the input check applied to the concrete input tuple
`(tensor0, "y")` which flattens to one tensor and one non-tensor. -/
theorem tracing_adapter_input_check_witness :
    flatten_to_tuple (wrapInputs (.tup [.tensor 0, .str "y"])) =
      .ok ([.tensor 0, .str "y"], .tup [.identity, .identity] [1, 1]) ∧
    TracingAdapter.init (.tup [.tensor 0, .str "y"]) false =
      .error PyErr.valueError ∧
    ∃ st, TracingAdapter.init (.tup [.tensor 0, .str "y"]) true = .ok st ∧
      ([PyObj.tensor 0, PyObj.str "y"].any (fun v => ! v.isTensor) = true →
        st.flattened_inputs =
          [PyObj.tensor 0, PyObj.str "y"].filter (fun v => v.isTensor) ∧
        st.inputs_schema = none) := by
  have hf : flatten_to_tuple (wrapInputs (.tup [.tensor 0, .str "y"])) =
      .ok ([.tensor 0, .str "y"], .tup [.identity, .identity] [1, 1]) := by
    simp [wrapInputs, flatten_to_tuple, flattenAll]
  have h := tracing_adapter_input_check _ _ _ hf
  exact ⟨hf, h.1.mpr rfl, h.2⟩

/-- C6: for every list of task names accepted by the `--tasks` argument,
the analysis.py loop performs exactly the corresponding library call for each
occurrence — "flop" invokes do_flop, "activation" do_activation,
"parameter" do_parameter, "structure" do_structure — once per occurrence,
in the order given, each with the loaded config. -/
theorem analysis_task_dispatch :
    ∀ (tasks : List String) (cfg : Cfg),
      (∀ t ∈ tasks, t ∈ taskChoices) →
      runTasks tasks cfg = some (tasks.map fun t => specTaskCall t cfg) := by
  intro tasks
  induction tasks with
  | nil =>
    intro cfg _
    rw [runTasks]
    rfl
  | cons t rest ih =>
    intro cfg h
    have ht := h t (List.mem_cons_self _ _)
    have hrest := ih cfg (fun y hy => h y (List.mem_cons_of_mem _ hy))
    rw [runTasks, hrest]
    simp only [taskChoices, List.mem_cons, List.not_mem_nil, or_false] at ht
    rcases ht with h1 | h1 | h1 | h1 <;> subst h1 <;> rfl

/-- Witness for C6: the dispatch theorem applied to the concrete task list
`["parameter", "flop", "parameter"]`. -/
theorem analysis_task_dispatch_witness :
    (∀ t ∈ ["parameter", "flop", "parameter"], t ∈ taskChoices) ∧
    runTasks ["parameter", "flop", "parameter"] ⟨0⟩ =
      some [.do_parameter ⟨0⟩, .do_flop ⟨0⟩, .do_parameter ⟨0⟩] := by
  have hc : ∀ t ∈ ["parameter", "flop", "parameter"], t ∈ taskChoices := by
    intro t ht
    simp only [taskChoices]
    simp only [List.mem_cons, List.not_mem_nil, or_false] at ht
    rcases ht with h | h | h <;> subst h <;> simp
  exact ⟨hc, (analysis_task_dispatch _ ⟨0⟩ hc).trans rfl⟩

/-- C7: the model declared in resnet18_tusimple.py is wired from exactly the
three stages named backbone, neck and head — a ResNetWrapper backbone, an
FPN neck and a GSEHead head — under the GSENet detector class. -/
theorem resnet18_tusimple_model_wiring :
    resnet18_tusimple_model.cls = "GSENet" ∧
    resnet18_tusimple_model.kwargs.map Prod.fst = ["backbone", "neck", "head"] ∧
    resnet18_tusimple_model.kwargClass "backbone" = some "ResNetWrapper" ∧
    resnet18_tusimple_model.kwargClass "neck" = some "FPN" ∧
    resnet18_tusimple_model.kwargClass "head" = some "GSEHead" :=
  ⟨rfl, rfl, rfl, rfl, rfl⟩

theorem lookupKey_some_mem {k : PyKey} {v : PyObj} :
    ∀ {l : List (PyKey × PyObj)}, lookupKey k l = some v → (k, v) ∈ l := by
  intro l
  induction l with
  | nil => intro h; rw [lookupKey] at h; cases h
  | cons e rest ih =>
    intro h
    rw [lookupKey] at h
    by_cases he : e.1 = k
    · rw [if_pos he] at h
      injection h with h
      have hev : (k, v) = e := by
        obtain ⟨k', v'⟩ := e
        simp only at he h
        rw [← he, ← h]
      rw [hev]
      exact List.mem_cons_self _ _
    · rw [if_neg he] at h
      exact List.mem_cons_of_mem _ (ih h)

theorem lookupKey_isSome_of_mem_keys {k : PyKey} :
    ∀ {l : List (PyKey × PyObj)}, k ∈ l.map Prod.fst →
      ∃ v, lookupKey k l = some v := by
  intro l
  induction l with
  | nil => intro h; simp at h
  | cons e rest ih =>
    intro h
    rw [lookupKey]
    by_cases he : e.1 = k
    · exact ⟨e.2, by rw [if_pos he]⟩
    · rw [List.map_cons, List.mem_cons] at h
      rcases h with h | h
      · exact absurd h.symm he
      · rw [if_neg he]
        exact ih h

theorem keysNodup_iff_nodup : ∀ (ks : List PyKey), keysNodup ks = true ↔ ks.Nodup := by
  intro ks
  induction ks with
  | nil => simp [keysNodup]
  | cons k rest ih =>
    rw [keysNodup, Bool.and_eq_true, List.nodup_cons, ← ih]
    constructor
    · rintro ⟨h1, h2⟩
      refine ⟨fun hmem => ?_, h2⟩
      have : rest.any (fun k' => decide (k' = k)) = true :=
        List.any_eq_true.mpr ⟨k, hmem, by simp⟩
      rw [this] at h1
      cases h1
    · rintro ⟨h1, h2⟩
      refine ⟨?_, h2⟩
      cases hany : rest.any (fun k' => decide (k' = k)) with
      | false => rfl
      | true =>
        obtain ⟨k', hk', he⟩ := List.any_eq_true.mp hany
        rw [decide_eq_true_eq] at he
        exact absurd (he ▸ hk') h1

theorem entries_nodup_of_keysNodup {l : List (PyKey × PyObj)}
    (h : keysNodup (l.map Prod.fst) = true) : l.Nodup := by
  rw [keysNodup_iff_nodup] at h
  exact List.Nodup.of_map Prod.fst h

theorem sorted_eq_of_perm :
    ∀ (l1 l2 : List (PyKey × PyObj)), l1.Perm l2 →
      List.Sorted entryLE l1 → List.Sorted entryLE l2 →
      (∀ e ∈ l1, (Prod.fst e).isStr = true) →
      keysNodup (l1.map Prod.fst) = true →
      l1 = l2 := by
  intro l1
  induction l1 with
  | nil => intro l2 hp _ _ _ _; exact (hp.symm.eq_nil).symm
  | cons a t1 ih =>
    intro l2 hp hs1 hs2 hstr hnd
    cases l2 with
    | nil => exact absurd hp.eq_nil (List.cons_ne_nil a t1)
    | cons b t2 =>
      obtain ⟨hs1h, hs1t⟩ := List.sorted_cons.mp hs1
      obtain ⟨hs2h, hs2t⟩ := List.sorted_cons.mp hs2
      have hab : a = b := by
        have hain : a ∈ b :: t2 := hp.mem_iff.mp (List.mem_cons_self _ _)
        have hbin : b ∈ a :: t1 := hp.mem_iff.mpr (List.mem_cons_self _ _)
        rcases List.mem_cons.mp hain with h | hat2
        · exact h
        · rcases List.mem_cons.mp hbin with h | hbt1
          · exact h.symm
          · exfalso
            have h1' : a.1.asStr ≤ b.1.asStr := hs1h b hbt1
            have h2' : b.1.asStr ≤ a.1.asStr := hs2h a hat2
            have hstra : a.1.isStr = true := hstr a (List.mem_cons_self _ _)
            have hstrb : b.1.isStr = true :=
              hstr b (List.mem_cons_of_mem _ hbt1)
            have hkeys : a.1 = b.1 := by
              rw [← PyKey.str_asStr hstra, ← PyKey.str_asStr hstrb,
                le_antisymm h1' h2']
            rw [List.map_cons, keysNodup, Bool.and_eq_true] at hnd
            have hx : ((t1.map Prod.fst).any fun k' => decide (k' = a.1))
                = true :=
              List.any_eq_true.mpr
                ⟨b.1, List.mem_map.mpr ⟨b, hbt1, rfl⟩, by simp [hkeys]⟩
            rw [hx] at hnd
            exact absurd hnd.1 (by simp)
      subst hab
      have ht : t1 = t2 := by
        refine ih t2 hp.cons_inv hs1t hs2t
          (fun e he => hstr e (List.mem_cons_of_mem _ he)) ?_
        rw [List.map_cons, keysNodup, Bool.and_eq_true] at hnd
        exact hnd.2
      rw [ht]

/-- C8: two string-keyed mappings that are equal as mappings — equal lookup
for every key, with the pairwise-distinct keys every Python dict has — have
identical `flatten_to_tuple` results (identical flattened tuples and equal
schemas), because DictSchema.flatten visits keys in sorted order rather than
insertion order. -/
theorem flatten_to_tuple_insertion_order_insensitive
    (e1 e2 : List (PyKey × PyObj))
    (hstr : ∀ k ∈ e1.map Prod.fst, k.isStr = true)
    (hnd1 : keysNodup (e1.map Prod.fst) = true)
    (hnd2 : keysNodup (e2.map Prod.fst) = true)
    (hlk : ∀ k, lookupKey k e1 = lookupKey k e2) :
    flatten_to_tuple (.dict e1) = flatten_to_tuple (.dict e2) := by
  have hperm : e1.Perm e2 := by
    rw [List.perm_ext_iff_of_nodup (entries_nodup_of_keysNodup hnd1)
      (entries_nodup_of_keysNodup hnd2)]
    intro e
    constructor
    · intro h
      exact lookupKey_some_mem ((hlk e.1).symm ▸ lookupKey_eq_some_of_mem hnd1 h)
    · intro h
      exact lookupKey_some_mem ((hlk e.1) ▸ lookupKey_eq_some_of_mem hnd2 h)
  have hstr2 : ∀ k ∈ e2.map Prod.fst, k.isStr = true := by
    intro k hk
    obtain ⟨e, he, hek⟩ := List.mem_map.mp hk
    exact hek ▸ hstr e.1 (List.mem_map.mpr ⟨e, hperm.mem_iff.mpr he, rfl⟩)
  have hsorted : sortedEntries e1 = sortedEntries e2 := by
    apply sorted_eq_of_perm
    · exact (sortedEntries_perm e1).trans (hperm.trans (sortedEntries_perm e2).symm)
    · exact List.sorted_insertionSort entryLE e1
    · exact List.sorted_insertionSort entryLE e2
    · intro e he
      exact hstr e.1 (List.mem_map.mpr ⟨e, (sortedEntries_perm e1).mem_iff.mp he, rfl⟩)
    · rw [keysNodup_iff_nodup] at hnd1 ⊢
      exact ((sortedEntries_perm e1).map Prod.fst).nodup_iff.mpr hnd1
  have hguard1 : (e1.map Prod.fst).any (fun k => ! k.isStr) = false := by
    rw [List.any_eq_false]
    intro k hk
    simp [hstr k hk]
  have hguard2 : (e2.map Prod.fst).any (fun k => ! k.isStr) = false := by
    rw [List.any_eq_false]
    intro k hk
    simp [hstr2 k hk]
  rw [flatten_to_tuple, if_neg (by rw [hguard1]; simp), hsorted,
    flatten_to_tuple, if_neg (by rw [hguard2]; simp)]

/-- Witness for C8: the order-insensitivity theorem applied to the two
concrete mappings `{"b": tensor0, "a": tensor1}` and
`{"a": tensor1, "b": tensor0}`. -/
theorem flatten_to_tuple_insertion_order_insensitive_witness :
    (∀ k, lookupKey k [(.str "b", .tensor 0), (.str "a", .tensor 1)] =
      lookupKey k [(.str "a", .tensor 1), (.str "b", .tensor 0)]) ∧
    flatten_to_tuple (.dict [(.str "b", .tensor 0), (.str "a", .tensor 1)]) =
      flatten_to_tuple (.dict [(.str "a", .tensor 1), (.str "b", .tensor 0)]) := by
  have hlk : ∀ k, lookupKey k [(.str "b", .tensor 0), (.str "a", .tensor 1)] =
      lookupKey k [(.str "a", .tensor 1), (.str "b", .tensor 0)] := by
    intro k
    by_cases hb : (PyKey.str "b") = k
    · subst hb
      simp [lookupKey]
    · by_cases ha : (PyKey.str "a") = k
      · subst ha
        simp [lookupKey]
      · simp [lookupKey, ha, hb]
  refine ⟨hlk, flatten_to_tuple_insertion_order_insensitive _ _ ?_ ?_ ?_ hlk⟩
  · intro k hk
    simp only [List.map_cons, List.map_nil, List.mem_cons, List.not_mem_nil,
      or_false] at hk
    rcases hk with h | h <;> subst h <;> rfl
  · rw [keysNodup_iff_nodup]
    simp [PyKey.str.injEq]
  · rw [keysNodup_iff_nodup]
    simp [PyKey.str.injEq]
